import Mathlib

/-
Verification development for the SLA support-island skeleton code
(`VoronoiGraphUtils.cpp`).

Modelling conventions:
* C++ `double` values are modelled as exact rationals (`ℚ`); floating-point
  rounding is not modelled.  `std::numeric_limits<double>::epsilon()` is the
  constant `2 ^ (-52)`.
* The square root used for Euclidean lengths (`sqrt` in `getSkeleton`,
  `Line::distance_to`) is kept abstract as a parameter `sqrtQ : ℚ → ℚ`;
  no considered property depends on its values.
* Diagram vertices and edges are identified by their indices (`ℕ`) into the
  diagram's vertex/edge vectors; C++ pointer comparisons on edges become
  index comparisons.
* `std::map` keyed by vertex pointers is modelled as an association list
  `List (ℕ × Node)`; the key order of the C++ map (pointer order) is not
  observable by any considered claim.
* Out-of-bounds accesses and null-pointer dereferences that the source
  guards with `assert` are modelled by total functions returning a junk
  default; every theorem below carries hypotheses that keep the runs away
  from those situations (mirroring the debug assertions).
-/

namespace VoronoiSupport

/-- Vertex classification of the annotated diagram (external annotation,
from `VoronoiOffset.hpp`, not part of the shown sources). -/
inductive VertexCategory where
  | Unknown
  | Inside
  | Outside
  | OnContour
  deriving DecidableEq

/-- Edge classification of the annotated diagram.  The shown source only
tests equality with `PointsInside`; the remaining enumerators are collapsed
into a second constructor. -/
inductive EdgeCategory where
  | PointsInside
  | OtherCategory
  deriving DecidableEq

/-- One diagram vertex: coordinates and its annotation. -/
structure Vertex where
  x : ℚ
  y : ℚ
  cat : VertexCategory
  deriving DecidableEq

/-- One half edge of the diagram.  `v0`/`v1` are vertex indices, `twin` the
index of the mirror half edge, `cell_source` the index of the boundary line
owning the edge's cell. -/
structure Edge where
  v0 : ℕ
  v1 : ℕ
  twin : ℕ
  secondary : Bool
  finite : Bool
  linear : Bool
  cat : EdgeCategory
  cell_source : ℕ
  deriving DecidableEq

/-- The annotated Voronoi diagram consumed by the skeleton builder. -/
structure VD where
  verts : List Vertex
  edges : List Edge

/-- Category of the vertex with index `i` (Unknown when out of range). -/
def vertexCat (vd : VD) (i : ℕ) : VertexCategory :=
  ((vd.verts[i]?).map Vertex.cat).getD VertexCategory.Unknown

/-- Position of the vertex with index `i`. -/
def vpos (vd : VD) (i : ℕ) : ℚ × ℚ :=
  ((vd.verts[i]?).map (fun v => (v.x, v.y))).getD (0, 0)

/-- Category of the twin of edge `e` (category of `vd.edges[e.twin]`). -/
def twinCat (vd : VD) (e : Edge) : EdgeCategory :=
  ((vd.edges[e.twin]?).map Edge.cat).getD EdgeCategory.OtherCategory

/-- A boundary segment of the island (`Slic3r::Line`, integer endpoints in
the source, modelled with rational coordinates). -/
structure Line where
  a : ℚ × ℚ
  b : ℚ × ℚ

/-- Squared distance from point `p` to the segment `l` (projection of `p`
onto the segment, clamped to its ends). -/
def Line.distance_to_sq (l : Line) (p : ℚ × ℚ) : ℚ :=
  let dx := l.b.1 - l.a.1
  let dy := l.b.2 - l.a.2
  let den := dx * dx + dy * dy
  let t0 := if den = 0 then 0 else ((p.1 - l.a.1) * dx + (p.2 - l.a.2) * dy) / den
  let t := max 0 (min 1 t0)
  let cx := l.a.1 + t * dx
  let cy := l.a.2 + t * dy
  (p.1 - cx) * (p.1 - cx) + (p.2 - cy) * (p.2 - cy)

/-- Distance from point `p` to segment `l` (`Line::distance_to`), with the
square root abstracted as `sqrtQ`. -/
def Line.distance_to (sqrtQ : ℚ → ℚ) (l : Line) (p : ℚ × ℚ) : ℚ :=
  sqrtQ (l.distance_to_sq p)

/-- `VoronoiGraph::Node::Neighbor`: the originating diagram edge (index),
its length and the target node (vertex index). -/
structure Neighbor where
  edge : ℕ
  edge_length : ℚ
  node : ℕ
  deriving DecidableEq

/-- `VoronoiGraph::Node`: the originating vertex index, the distance to the
island border, and the list of neighbor edges. -/
structure Node where
  vertex : ℕ
  distance : ℚ
  neighbors : List Neighbor
  deriving DecidableEq

/-- `VoronoiGraph`: association list from vertex index to its node. -/
abbrev Graph := List (ℕ × Node)

/-- Node stored for vertex `v`, if any (`graph.data.find`). -/
def lookupNode (g : Graph) (v : ℕ) : Option Node :=
  (g.find? (fun p => p.1 = v)).map Prod.snd

/-- `VoronoiGraphUtils::getNode`: return the graph extended with a node for
vertex `v` unless one already exists.  The distance to the island border is
computed from the boundary line owning the edge's cell. -/
def ensureNode (sqrtQ : ℚ → ℚ) (vd : VD) (lines : List Line) (g : Graph)
    (v : ℕ) (e : Edge) : Graph :=
  if (lookupNode g v).isSome then g
  else
    let line := (lines[e.cell_source]?).getD ⟨(0, 0), (0, 0)⟩
    let d := Line.distance_to sqrtQ line (vpos vd v)
    g ++ [(v, ⟨v, d, []⟩)]

/-- Append neighbor record `nb` to the node stored for vertex `v`. -/
def addNeighbor (g : Graph) (v : ℕ) (nb : Neighbor) : Graph :=
  g.map (fun p => if p.1 = v then (p.1, ⟨p.2.vertex, p.2.distance, p.2.neighbors ++ [nb]⟩) else p)

/-- Length given to an accepted edge: Euclidean distance of its endpoints
when linear, the placeholder `1.0` when curved. -/
def edgeLen (sqrtQ : ℚ → ℚ) (vd : VD) (e : Edge) : ℚ :=
  if e.linear then
    let p0 := vpos vd e.v0
    let p1 := vpos vd e.v1
    let dx := p0.1 - p1.1
    let dy := p0.2 - p1.2
    sqrtQ (dx * dx + dy * dy)
  else 1

/-- Processing of one accepted edge in `getSkeleton`: create both endpoint
nodes when missing and install the two reciprocal neighbor records. -/
def processEdge (sqrtQ : ℚ → ℚ) (vd : VD) (lines : List Line) (g : Graph)
    (i : ℕ) (e : Edge) : Graph :=
  let len := edgeLen sqrtQ vd e
  let g1 := ensureNode sqrtQ vd lines g e.v0 e
  let g2 := ensureNode sqrtQ vd lines g1 e.v1 e
  let g3 := addNeighbor g2 e.v0 ⟨i, len, e.v1⟩
  addNeighbor g3 e.v1 ⟨e.twin, len, e.v0⟩

/-- Edge loop of `getSkeleton`; `i` is the index of the first edge of the
remaining list.  Reaching an edge that passed every filter but has an
endpoint with `Unknown` category aborts the whole construction with an
empty graph (`return {}` in the source). -/
def buildSkel (sqrtQ : ℚ → ℚ) (vd : VD) (lines : List Line) :
    ℕ → List Edge → Graph → Graph
  | _, [], g => g
  | i, e :: rest, g =>
    if e.secondary = true ∨ e.finite = false ∨ e.twin < i ∨
        (e.cat ≠ EdgeCategory.PointsInside ∧ twinCat vd e ≠ EdgeCategory.PointsInside) then
      buildSkel sqrtQ vd lines (i + 1) rest g
    else if vertexCat vd e.v0 = VertexCategory.Outside ∨
        vertexCat vd e.v1 = VertexCategory.Outside then
      buildSkel sqrtQ vd lines (i + 1) rest g
    else if vertexCat vd e.v0 = VertexCategory.Unknown ∨
        vertexCat vd e.v1 = VertexCategory.Unknown then
      []
    else
      buildSkel sqrtQ vd lines (i + 1) rest (processEdge sqrtQ vd lines g i e)

/-- `VoronoiGraphUtils::getSkeleton`. -/
def getSkeleton (sqrtQ : ℚ → ℚ) (vd : VD) (lines : List Line) : Graph :=
  buildSkel sqrtQ vd lines 0 vd.edges []

/-- First two filter groups of `getSkeleton` (the `continue` conditions):
primary, finite, not a skipped twin, and no endpoint classified `Outside`. -/
def passFilters (vd : VD) (i : ℕ) (e : Edge) : Prop :=
  e.secondary = false ∧ e.finite = true ∧ ¬(e.twin < i) ∧
    (e.cat = EdgeCategory.PointsInside ∨ twinCat vd e = EdgeCategory.PointsInside) ∧
    vertexCat vd e.v0 ≠ VertexCategory.Outside ∧
    vertexCat vd e.v1 ≠ VertexCategory.Outside

instance (vd : VD) (i : ℕ) (e : Edge) : Decidable (passFilters vd i e) := by
  unfold passFilters; infer_instance

/-- An endpoint of `e` is classified `Unknown`. -/
def unknownAt (vd : VD) (e : Edge) : Prop :=
  vertexCat vd e.v0 = VertexCategory.Unknown ∨ vertexCat vd e.v1 = VertexCategory.Unknown

instance (vd : VD) (e : Edge) : Decidable (unknownAt vd e) := by
  unfold unknownAt; infer_instance

/-- Edge accepted by `getSkeleton`: it passes every filter and triggers no
`Unknown` abort, so two neighbor records are installed for it. -/
def acceptedEdge (vd : VD) (i : ℕ) (e : Edge) : Prop :=
  passFilters vd i e ∧ ¬unknownAt vd e

instance (vd : VD) (i : ℕ) (e : Edge) : Decidable (acceptedEdge vd i e) := by
  unfold acceptedEdge; infer_instance

/-- List of edges paired with their indices, starting at index `k`. -/
def enumFrom (k : ℕ) : List Edge → List (ℕ × Edge)
  | [] => []
  | e :: rest => (k, e) :: enumFrom (k + 1) rest

/-- Neighbor list of the node stored for vertex `a` (empty when the node
does not exist). -/
def neighborsOf (g : Graph) (a : ℕ) : List Neighbor :=
  ((lookupNode g a).map Node.neighbors).getD []

/-- Neighbor records of node `a` that reference node `b`. -/
def nbsTo (g : Graph) (a b : ℕ) : List Neighbor :=
  (neighborsOf g a).filter (fun nb => nb.node = b)

/-- Edge `e` connects the vertices `a` and `b` (in either orientation). -/
def connectsFrom (a b : ℕ) (e : Edge) : Prop :=
  (e.v0 = a ∧ e.v1 = b) ∨ (e.v0 = b ∧ e.v1 = a)

instance (a b : ℕ) (e : Edge) : Decidable (connectsFrom a b e) := by
  unfold connectsFrom; infer_instance

/-- Neighbor record that `getSkeleton` installs at node `a` for the indexed
accepted edge `p` connecting `a` and `b`: the edge itself when it starts at
`a`, otherwise its twin. -/
def entryFor (sqrtQ : ℚ → ℚ) (vd : VD) (a b : ℕ) (p : ℕ × Edge) : Neighbor :=
  if p.2.v0 = a then ⟨p.1, edgeLen sqrtQ vd p.2, b⟩
  else ⟨p.2.twin, edgeLen sqrtQ vd p.2, b⟩

/-- `VoronoiGraphUtils::get_neighbor`: first neighbor record of node `from`
pointing at node `to`. -/
def getNeighbor (g : Graph) (a b : ℕ) : Option Neighbor :=
  ((lookupNode g a).map Node.neighbors).getD [] |>.find? (fun nb => nb.node = b)

/-- `VoronoiGraphUtils::get_neighbor_distance`.  The source asserts that the
neighbor exists; a missing neighbor is modelled by length `0`. -/
def nbDist (g : Graph) (a b : ℕ) : ℚ :=
  ((getNeighbor g a b).map Neighbor.edge_length).getD 0

/-- `VoronoiGraph::Path`: node sequence plus its stored length. -/
structure Path where
  path : List ℕ
  length : ℚ
  deriving DecidableEq

/-- `VoronoiGraph::Circle`: node sequence of a detected cycle plus its
stored length. -/
structure Circle where
  path : List ℕ
  length : ℚ
  deriving DecidableEq

/-- `VoronoiGraph::ExPath::SideBranches`: a max-priority queue of paths,
modelled as a list kept sorted by decreasing length (`top` is the head). -/
abbrev SideBranches := List Path

/-- Top of a side-branch priority queue (the longest stored path); calling
`top` on an empty queue is undefined behaviour in the source and yields the
trivial path here. -/
def sbTop (bs : SideBranches) : Path :=
  bs.head?.getD ⟨[], 0⟩

/-- Pop of the side-branch priority queue. -/
def sbPop (bs : SideBranches) : SideBranches :=
  bs.tail

/-- Push into the side-branch priority queue, keeping the list sorted by
decreasing length (ties keep the older element first). -/
def sbPush (bs : SideBranches) (p : Path) : SideBranches :=
  match bs with
  | [] => [p]
  | q :: rest => if q.length < p.length then p :: q :: rest else q :: sbPush rest p

/-- `VoronoiGraph::ExPath::SideBranchesMap`: association list from branch
node to its side-branch queue. -/
abbrev SBMap := List (ℕ × SideBranches)

/-- Side-branch queue stored for node `n`, if any (`side_branches.find`). -/
def sbFind (sb : SBMap) (n : ℕ) : Option SideBranches :=
  (sb.find? (fun p => p.1 = n)).map Prod.snd

/-- Replace the queue stored for node `n`. -/
def sbUpdate (sb : SBMap) (n : ℕ) (bs : SideBranches) : SBMap :=
  sb.map (fun p => if p.1 = n then (p.1, bs) else p)

/-- `VoronoiGraph::ExPath::ConnectedCircles` (`std::map<size_t, std::set<size_t>>`):
the key set together with the stored set for every key (empty for
non-keys). -/
structure CCMap where
  keys : Finset ℕ
  f : ℕ → Finset ℕ

/-- The empty connected-circle map. -/
def CCMap.empty : CCMap := ⟨∅, fun _ => ∅⟩

/-- `VoronoiGraph::ExPath`: main path, its length, the side branches, the
discovered circles and the connected-circle bookkeeping. -/
structure ExPath where
  path : List ℕ
  length : ℚ
  side_branches : SBMap
  circles : List Circle
  connected_circle : CCMap

/-! ## find_longest_path_on_circle -/

/-- Loop state of the scan in `find_longest_path_on_circle`. -/
structure CircleScan where
  prev : Option ℕ
  dist : ℚ
  isShortRev : Bool
  bestLen : ℚ
  bestNode : Option ℕ
  bestRev : Bool
  deriving DecidableEq

/-- One iteration of the scan in `find_longest_path_on_circle`: accumulate
the running arc length, and at a node owning side branches compare the
branch value against the best one found so far.  `L` is the circle's stored
length. -/
def circleScanStep (g : Graph) (sb : SBMap) (L : ℚ) (s : CircleScan) (n : ℕ) : CircleScan :=
  let dist :=
    match s.prev with
    | none => s.dist
    | some p => s.dist + nbDist g n p
  match sbFind sb n with
  | none => { s with prev := some n, dist := dist }
  | some bs =>
    let isShortRev := if L / 2 < dist then true else s.isShortRev
    let cbl := (sbTop bs).length + (if isShortRev then L - dist else dist)
    if s.bestLen < cbl then
      { prev := some n, dist := dist, isShortRev := isShortRev,
        bestLen := cbl, bestNode := some n, bestRev := isShortRev }
    else
      { s with prev := some n, dist := dist, isShortRev := isShortRev }

/-- `VoronoiGraphUtils::find_longest_path_on_circle`.  The source asserts
that some side branch was found; otherwise the trivial path is returned
here. -/
def find_longest_path_on_circle (g : Graph) (circle : Circle) (sb : SBMap) : Path :=
  let scan := circle.path.foldl (circleScanStep g sb circle.length)
    ⟨none, 0, false, 0, none, false⟩
  match scan.bestNode with
  | none => ⟨[], 0⟩
  | some bn =>
    let idx := circle.path.indexOf bn
    let cpath :=
      if scan.bestRev then (circle.path.drop idx).reverse
      else if circle.path.head? = some bn then []
      else (circle.path.drop 1).take idx
    let top := sbTop ((sbFind sb bn).getD [])
    ⟨cpath ++ top.path, scan.bestLen⟩

/-! ## merge_connected_circle -/

/-- One iteration of the outer loop of
`VoronoiGraphUtils::merge_connected_circle`, on the state
`(done, connected-circle map)`.  The inner propagation loop writes, for
every `prev` in the merged destination set, the union of `dst_set` and the
singleton of `dst_index`, minus `prev` itself, into the entry of `prev`;
the iteration order of that `std::set` loop does not affect the result, so
the effect is expressed pointwise. -/
def mergeStep (off : ℕ) (st : Finset ℕ × CCMap) (item : ℕ × Finset ℕ) : Finset ℕ × CCMap :=
  let di := off + item.1
  if di ∈ st.1 then st
  else
    let conn := item.2.image (fun s => off + s)
    let dstSet := st.2.f di ∪ conn
    let conn2 := insert di dstSet
    let done2 := insert di st.1 ∪ dstSet
    let base : ℕ → Finset ℕ := fun x => if x = di then st.2.f di ∪ conn else st.2.f x
    ( done2,
      { keys := insert di st.2.keys ∪ dstSet,
        f := fun x => if x ∈ dstSet then base x ∪ conn2.erase x else base x } )

/-- `VoronoiGraphUtils::merge_connected_circle`: merge `src` (a key-sorted
association list, as iterated by `std::map`) into `dst`, offsetting every
circle index by `off`. -/
def merge_connected_circle (dst : CCMap) (src : List (ℕ × Finset ℕ)) (off : ℕ) : CCMap :=
  (src.foldl (mergeStep off) (∅, dst)).2

/-- Transitive closure property of a connected-circle map: if `B` is
listed for `A` and `C` for `B`, then `C` is listed for `A` (when `C` is
not `A` itself). -/
def ccClosed (m : CCMap) : Prop :=
  ∀ A B C, B ∈ m.f A → C ∈ m.f B → C ≠ A → C ∈ m.f A

/-- The group of circles an entry of the source map describes: its key
together with its stored set. -/
def classOf (p : ℕ × Finset ℕ) : Finset ℕ := insert p.1 p.2

/-- The same group, offset by the destination's circle count. -/
def offClass (off : ℕ) (p : ℕ × Finset ℕ) : Finset ℕ :=
  (insert p.1 p.2).image (fun x => off + x)

/-- Well-formedness of the source map, as maintained by the explorer for
`ExPath::connected_circle`: distinct keys, no self-listing, and the data
symmetric and transitively closed (every member of a group carries the
rest of that group). -/
def srcGood (src : List (ℕ × Finset ℕ)) : Prop :=
  (src.map Prod.fst).Nodup ∧
  (∀ p ∈ src, p.1 ∉ p.2) ∧
  (∀ p ∈ src, ∀ q ∈ p.2, (q, (insert p.1 p.2).erase q) ∈ src)

/-- Well-formedness of the destination map before the merge, as invoked by
`append_neighbor_branch`: all indices below the destination circle count
`off`, empty sets outside the key set, and transitively closed. -/
def dstGood (off : ℕ) (dst : CCMap) : Prop :=
  (∀ A ∈ dst.keys, A < off) ∧
  (∀ A B, B ∈ dst.f A → B < off) ∧
  (∀ A, A ∉ dst.keys → dst.f A = ∅) ∧
  ccClosed dst

/-- Invariant of the outer merge loop, relative to the destination `dst`,
the source `src` and the offset `off`: the done set is a union of complete
offset groups, entries of done elements hold exactly the rest of their
group, entries of untouched elements are the destination's, and keys cover
the done set and the old keys. -/
def mergeInv (off : ℕ) (dst : CCMap) (src : List (ℕ × Finset ℕ))
    (st : Finset ℕ × CCMap) : Prop :=
  (∀ x ∈ st.1, ∃ p ∈ src, x ∈ offClass off p ∧ offClass off p ⊆ st.1) ∧
  (∀ p ∈ src, ∀ x ∈ offClass off p, x ∈ st.1 → st.2.f x = (offClass off p).erase x) ∧
  (∀ x, x ∉ st.1 → st.2.f x = dst.f x) ∧
  st.1 ⊆ st.2.keys ∧ dst.keys ⊆ st.2.keys

/-- Merge of two side-branch maps (`std::map::insert` over a range keeps
the destination entry on key collision). -/
def sbMerge (dst src : SBMap) : SBMap :=
  dst ++ src.filter (fun p => (sbFind dst p.1).isNone)

/-- `VoronoiGraphUtils::append_neighbor_branch`. -/
def append_neighbor_branch (dst src : ExPath) : ExPath :=
  let sb := if src.side_branches.isEmpty then dst.side_branches
            else sbMerge dst.side_branches src.side_branches
  if src.circles.isEmpty then
    { dst with side_branches := sb }
  else
    let cc := if src.connected_circle.keys = ∅ then dst.connected_circle
              else merge_connected_circle dst.connected_circle
                     (src.connected_circle.keys.sort (· ≤ ·) |>.map
                        (fun k => (k, src.connected_circle.f k)))
                     dst.circles.length
    { dst with side_branches := sb,
               circles := dst.circles ++ src.circles,
               connected_circle := cc }

/-! ## reshape_longest_path -/

/-- Loop state of `reshape_longest_path`: the mutated extended path
(main path, stored length, side branches) plus the walk bookkeeping
(index into the current main path, walked arc length, previous node). -/
structure ReshapeState where
  path : List ℕ
  length : ℚ
  branches : SBMap
  pathIndex : ℕ
  actual : ℚ
  prev : Option ℕ
  deriving DecidableEq

/-- One iteration of `reshape_longest_path` on node `n` of the original
path: advance the walked length, then splice when the longest side branch
stored at `n` is strictly longer than the walked length. -/
def reshape_step (g : Graph) (s : ReshapeState) (n : ℕ) : ReshapeState :=
  let idx2 := match s.prev with | none => s.pathIndex | some _ => s.pathIndex + 1
  let act2 := match s.prev with | none => s.actual | some p => s.actual + nbDist g p n
  let s2 : ReshapeState :=
    ⟨s.path, s.length, s.branches, idx2, act2, some n⟩
  match sbFind s.branches n with
  | none => s2
  | some bs =>
    if (sbTop bs).length ≤ act2 then s2
    else
      let sideBranch : Path := ⟨(s2.path.take idx2).reverse, act2⟩
      let newMain : Path := ⟨(sbTop bs).path.reverse, (sbTop bs).length⟩
      let bs2 := sbPush (sbPop bs) sideBranch
      ⟨newMain.path ++ s2.path.drop idx2,
       s2.length + newMain.length - act2,
       sbUpdate s2.branches n bs2,
       newMain.path.length,
       newMain.length,
       some n⟩

/-- `VoronoiGraphUtils::reshape_longest_path`: walk a copy of the original
main path, splicing in a longer side branch whenever one is found. -/
def reshape_longest_path (g : Graph) (ex : ExPath) : ExPath :=
  let st := ex.path.foldl (reshape_step g) ⟨ex.path, ex.length, ex.side_branches, 0, 0, none⟩
  { ex with path := st.path, length := st.length, side_branches := st.branches }

/-- Modelled from the spec: the Path Explorer (`EvaluateNeighbor` /
`IStackFunction`, whose sources are not part of the shown files) is
abstracted as a function from the start vertex to the raw extended path it
accumulates.  `create_longest_path` then reshapes that raw path, exactly as
the shown source does after its dispatch loop. -/
def create_longest_path (g : Graph) (explore : ℕ → ExPath) (start : ℕ) : ExPath :=
  reshape_longest_path g (explore start)

/-! ## Sampling -/

/-- Machine epsilon of `double` (`2⁻⁵²`), used by `get_edge_point`. -/
def eps : ℚ := 1 / 2 ^ 52

/-- `VoronoiGraphUtils::get_edge_point`: clamp the interpolation ratio at
the edge ends, interpolate linearly on a linear edge, return the start
point of a curved edge. -/
def get_edge_point (vd : VD) (eidx : ℕ) (ratio : ℚ) : ℚ × ℚ :=
  match vd.edges[eidx]? with
  | none => (0, 0)
  | some e =>
    let p0 := vpos vd e.v0
    let p1 := vpos vd e.v1
    if ratio ≤ eps then p0
    else if 1 - eps ≤ ratio then p1
    else if e.linear then
      (p0.1 + ratio * (p1.1 - p0.1), p0.2 + ratio * (p1.2 - p0.2))
    else p0

/-- Walk of `get_center_of_path` over the tail of the path; `prev` is the
node already passed, `dist` the arc length accumulated so far. -/
def get_center_aux (vd : VD) (g : Graph) (half : ℚ) : ℕ → ℚ → List ℕ → ℚ × ℚ
  | _, _, [] => (0, 0)
  | prev, dist, n :: rest =>
    let nb := (getNeighbor g prev n).getD ⟨0, 0, n⟩
    let dist2 := dist + nb.edge_length
    if half ≤ dist2 then
      get_edge_point vd nb.edge (1 - (dist2 - half) / nb.edge_length)
    else
      get_center_aux vd g half n dist2 rest

/-- `VoronoiGraphUtils::get_center_of_path`: the point at half the given
path length.  Exhausting the path without reaching the half length is a
debug assertion in the source and yields `(0, 0)`. -/
def get_center_of_path (vd : VD) (g : Graph) (path : List ℕ) (len : ℚ) : ℚ × ℚ :=
  match path with
  | [] => (0, 0)
  | first :: rest => get_center_aux vd g (len / 2) first 0 rest

/-- `VoronoiGraphUtils::get_offseted_point`: move away from `node` (which
the source asserts has exactly one neighbor) along its single edge by the
fraction `padding / edge_length` of the edge vector. -/
def get_offseted_point (vd : VD) (node : Node) (padding : ℚ) : ℚ × ℚ :=
  match node.neighbors with
  | [] => (0, 0)
  | nb :: _ =>
    match vd.edges[nb.edge]? with
    | none => (0, 0)
    | some e =>
      let p0 := vpos vd e.v0
      let p1 := vpos vd e.v1
      let dir0 := (p0.1 - p1.1, p0.2 - p1.2)
      let dir := if node.vertex = e.v0 then (-dir0.1, -dir0.2) else dir0
      let size := nb.edge_length / padding
      let np := vpos vd node.vertex
      (np.1 + dir.1 / size, np.2 + dir.2 / size)

/-- Sampling configuration (`SampleConfig`, whose header is not part of the
shown files); only the two consumed fields are modelled. -/
structure SampleConfig where
  max_length_for_one_support_point : ℚ
  start_distance : ℚ

/-- First node of the graph whose vertex is classified `OnContour`
(the start-node scan of `sample_voronoi_graph`). -/
def findStart (vd : VD) (g : Graph) : Option (ℕ × Node) :=
  g.find? (fun p => vertexCat vd p.1 = VertexCategory.OnContour)

/-- `VoronoiGraphUtils::sample_voronoi_graph`: extract the longest path
(the explorer is the abstracted `explore`, see `create_longest_path`) and
emit either the single center point or the first offset point of the
multi-point pass.  A graph without an `OnContour` vertex fails an assertion
in the source and yields no points here. -/
def sample_voronoi_graph (vd : VD) (g : Graph) (cfg : SampleConfig)
    (explore : ℕ → ExPath) : List (ℚ × ℚ) :=
  match findStart vd g with
  | none => []
  | some (s, node) =>
    let ex := create_longest_path g explore s
    if ex.length < cfg.max_length_for_one_support_point then
      [get_center_of_path vd g ex.path ex.length]
    else
      [get_offseted_point vd node cfg.start_distance]

/-! ## Specification-side definitions (taken from the spec's words) -/

/-- Nodes of a walk paired with the running arc length, accumulated exactly
as the scan of `find_longest_path_on_circle` does (distance from the
current node back to the previous one). -/
def circleWalk (g : Graph) : Option ℕ → ℚ → List ℕ → List (ℕ × ℚ)
  | _, _, [] => []
  | prev, d, n :: rest =>
    let d2 := match prev with | none => d | some p => d + nbDist g n p
    (n, d2) :: circleWalk g (some n) d2 rest

/-- Values the claim (amended) assigns to the branch-owning circle nodes:
longest stored branch length plus the shorter of (running arc length,
circle length minus running arc length). -/
def branchValsShorter (g : Graph) (circle : Circle) (sb : SBMap) : List ℚ :=
  (circleWalk g none 0 circle.path).filterMap
    (fun p => (sbFind sb p.1).map
      (fun bs => (sbTop bs).length + min p.2 (circle.length - p.2)))

/-- Values the claim (as stated) assigns to the branch-owning circle nodes:
longest stored branch length plus the longer of (running arc length,
circle length minus running arc length). -/
def branchValsLonger (g : Graph) (circle : Circle) (sb : SBMap) : List ℚ :=
  (circleWalk g none 0 circle.path).filterMap
    (fun p => (sbFind sb p.1).map
      (fun bs => (sbTop bs).length + max p.2 (circle.length - p.2)))

/-- Branch values of a partial circle walk, starting at a given previous
node and accumulated distance (generalization of `branchValsShorter` used
in the fold induction). -/
def valsFrom (g : Graph) (sb : SBMap) (L : ℚ) (prev : Option ℕ) (d : ℚ) (l : List ℕ) : List ℚ :=
  (circleWalk g prev d l).filterMap
    (fun p => (sbFind sb p.1).map (fun bs => (sbTop bs).length + min p.2 (L - p.2)))

/-- Every step of the walk adds a non-negative neighbor distance
(distances taken from the current node back to the previous one, as the
circle scan does). -/
def walkMonoB (g : Graph) : Option ℕ → List ℕ → Bool
  | _, [] => true
  | prev, n :: rest =>
    (match prev with | none => true | some p => decide (0 ≤ nbDist g n p)) &&
      walkMonoB g (some n) rest

/-- Arc length of a node list, accumulated exactly as
`reshape_longest_path` does (distance from the previous node to the
current one). -/
def walkedTotal (g : Graph) : List ℕ → ℚ
  | [] => 0
  | [_] => 0
  | a :: b :: rest => nbDist g a b + walkedTotal g (b :: rest)

/-- Walk state of `reshape_longest_path` after passing the nodes `l`
without any splice: untouched path, length and branches, index and walked
length advanced. -/
def plainAdvance (g : Graph) (ex : ExPath) (l : List ℕ) : ReshapeState :=
  ⟨ex.path, ex.length, ex.side_branches, l.length - 1, walkedTotal g l, l.getLast?⟩

/-- No node of the walk owns a side branch strictly longer than the arc
length walked from the start to that node (the fixed-point condition of
`reshape_longest_path`). -/
def stableAux (g : Graph) (sb : SBMap) : Option ℕ → ℚ → List ℕ → Bool
  | _, _, [] => true
  | prev, act, n :: rest =>
    let act2 := match prev with | none => act | some p => act + nbDist g p n
    match sbFind sb n with
    | none => stableAux g sb (some n) act2 rest
    | some bs =>
      if (sbTop bs).length ≤ act2 then stableAux g sb (some n) act2 rest else false

/-- Fixed-point condition of `reshape_longest_path` for a whole extended
path. -/
def stableWalk (g : Graph) (ex : ExPath) : Bool :=
  stableAux g ex.side_branches none 0 ex.path

/-- Arc-length midpoint of a path as the spec words it: walk the path's
edges accumulating length until half the total length falls within an edge
(strictly inside it, beyond machine epsilon of either end), then
interpolate linearly along that edge; a curved edge contributes its start
point.  `none` when the walk fails to land properly inside an edge. -/
def specCenterAux (vd : VD) (g : Graph) (half : ℚ) : ℕ → ℚ → List ℕ → Option (ℚ × ℚ)
  | _, _, [] => none
  | prev, dist, n :: rest =>
    match getNeighbor g prev n with
    | none => none
    | some nb =>
      if half ≤ dist + nb.edge_length then
        match vd.edges[nb.edge]? with
        | none => none
        | some e =>
          let t := (half - dist) / nb.edge_length
          if 0 < nb.edge_length ∧ eps < t ∧ t < 1 - eps then
            some (if e.linear then
                    ((vpos vd e.v0).1 + t * ((vpos vd e.v1).1 - (vpos vd e.v0).1),
                     (vpos vd e.v0).2 + t * ((vpos vd e.v1).2 - (vpos vd e.v0).2))
                  else vpos vd e.v0)
          else none
      else specCenterAux vd g half n (dist + nb.edge_length) rest

/-- Arc-length midpoint of a path (specification reading of
`get_center_of_path`). -/
def specArcCenter (vd : VD) (g : Graph) (path : List ℕ) (len : ℚ) : Option (ℚ × ℚ) :=
  match path with
  | [] => none
  | first :: rest => specCenterAux vd g (len / 2) first 0 rest

/-- Point `p` lies strictly between `a` and `b` on the segment from `a`
to `b`. -/
def strictlyBetween (a b p : ℚ × ℚ) : Prop :=
  ∃ t : ℚ, 0 < t ∧ t < 1 ∧ p = (a.1 + t * (b.1 - a.1), a.2 + t * (b.2 - a.2))

/-- Modelled from the spec: the Path Explorer (`EvaluateNeighbor` /
`IStackFunction`, not part of the shown sources) applied to a skeleton that
consists of a single node and no edges yields the trivial extended path
holding only the start node, with length zero and no side branches or
circles. -/
def spec_explore_single (v : ℕ) : ExPath :=
  ⟨[v], 0, [], [], CCMap.empty⟩

/-! ## Concrete test data for witnesses and counterexamples -/

/-- Concrete diagram for the C5 witness: a single linear primary edge whose
second endpoint is `Unknown`. -/
def vdC5 : VD :=
  ⟨[⟨0, 0, VertexCategory.Inside⟩, ⟨1, 0, VertexCategory.Unknown⟩],
   [⟨0, 1, 1, false, true, true, EdgeCategory.PointsInside, 0⟩,
    ⟨1, 0, 0, false, true, true, EdgeCategory.PointsInside, 0⟩]⟩

/-- Concrete edge for the C10 witness. -/
def vdC10 : VD :=
  ⟨[⟨0, 0, VertexCategory.Inside⟩, ⟨4, 0, VertexCategory.Inside⟩],
   [⟨0, 1, 1, false, true, true, EdgeCategory.PointsInside, 0⟩]⟩

/-- Concrete single-node diagram for C9: one `OnContour` vertex at (5, 7),
no edges. -/
def vdC9 : VD := ⟨[⟨5, 7, VertexCategory.OnContour⟩], []⟩

/-- Skeleton of `vdC9`: the single node, no neighbors. -/
def gC9 : Graph := [(0, ⟨0, 0, []⟩)]

/-- Sampling configuration for C9 (any positive threshold). -/
def cfgC9 : SampleConfig := ⟨1, 1⟩

/-- Graph for the C3 counterexample. -/
def gC3 : Graph :=
  [(0, ⟨0, 0, [⟨0, 1, 1⟩]⟩),
   (1, ⟨1, 0, [⟨1, 1, 2⟩]⟩),
   (3, ⟨3, 0, [⟨2, 1, 1⟩]⟩),
   (4, ⟨4, 0, [⟨3, 9, 3⟩]⟩)]

/-- Extended path for the C3 counterexample: the first reshape splices the
branch `[3, 4]` in at node `1`; node `3` of that spliced-in prefix owns a
side branch of length `19/2`, longer than the walked distance `9`, which a
second reshape splices as well. -/
def exC3 : ExPath :=
  ⟨[0, 1, 2], 2, [(1, [⟨[3, 4], 10⟩]), (3, [⟨[5], 19/2⟩])], [], CCMap.empty⟩

/-- Graph for the C3 witness. -/
def gC3w : Graph := [(0, ⟨0, 0, [⟨0, 2, 1⟩]⟩)]

/-- Stable extended path for the C3 witness: the branch at node `1` has
length `1`, not exceeding the walked distance `2`. -/
def exC3w : ExPath := ⟨[0, 1], 2, [(1, [⟨[9], 1⟩])], [], CCMap.empty⟩

/-- Graph for the C1 counterexample and witness: a three-node circle
segment with unit arc lengths. -/
def gC1 : Graph :=
  [(0, ⟨0, 0, [⟨0, 1, 1⟩]⟩),
   (1, ⟨1, 0, [⟨0, 1, 0⟩, ⟨1, 1, 2⟩]⟩),
   (2, ⟨2, 0, [⟨1, 1, 1⟩]⟩)]

/-- Circle for C1: node sequence `[0, 1, 2]`, stored circle length 10. -/
def cC1 : Circle := ⟨[0, 1, 2], 10⟩

/-- Side branches for C1: one branch `[5]` of length 5 at circle node 1. -/
def sbC1 : SBMap := [(1, [⟨[5], 5⟩])]

/-- Graph for the C2 counterexample and witness: arc lengths 1 from node 0
to node 1 and 10 from node 1 to node 2. -/
def gC2 : Graph :=
  [(0, ⟨0, 0, [⟨0, 1, 1⟩]⟩),
   (1, ⟨1, 0, [⟨1, 10, 2⟩]⟩)]

/-- Extended path for the C2 counterexample and witness: main path
`[0, 1, 2]` of length 11, one side branch `[3]` of length 5 at node 1. -/
def exC2 : ExPath :=
  ⟨[0, 1, 2], 11, [(1, [⟨[3], 5⟩])], [], CCMap.empty⟩

/-- Concrete diagram for the C6 witness: two Inside vertices at distance 5,
joined by a primary linear edge pair (indices 0 and 1, mutual twins). -/
def vdC6 : VD :=
  ⟨[⟨0, 0, VertexCategory.Inside⟩, ⟨3, 4, VertexCategory.Inside⟩],
   [⟨0, 1, 1, false, true, true, EdgeCategory.PointsInside, 0⟩,
    ⟨1, 0, 0, false, true, true, EdgeCategory.PointsInside, 0⟩]⟩

/-- Concrete diagram for the C7/C8 witnesses: an OnContour vertex at the
origin and an Inside vertex at (2, 0), joined by a linear edge pair. -/
def vdC7 : VD :=
  ⟨[⟨0, 0, VertexCategory.OnContour⟩, ⟨2, 0, VertexCategory.Inside⟩],
   [⟨0, 1, 1, false, true, true, EdgeCategory.PointsInside, 0⟩,
    ⟨1, 0, 0, false, true, true, EdgeCategory.PointsInside, 0⟩]⟩

/-- Skeleton of `vdC7`: two nodes joined by reciprocal records of
length 2. -/
def gC7 : Graph :=
  [(0, ⟨0, 0, [⟨0, 2, 1⟩]⟩),
   (1, ⟨1, 0, [⟨1, 2, 0⟩]⟩)]

/-- Explorer result on `gC7` for the C7/C8 witnesses: the two-node path of
length 2, no side branches. -/
def exploreC7 : ℕ → ExPath := fun _ => ⟨[0, 1], 2, [], [], CCMap.empty⟩

/-- Configuration for the C7 witness (threshold above the path length). -/
def cfgC7 : SampleConfig := ⟨10, 1⟩

/-- Configuration for the C8 witness (threshold below the path length,
start distance 1). -/
def cfgC8 : SampleConfig := ⟨1, 1⟩

/-! ## C5: an Unknown endpoint on an accepted edge aborts getSkeleton -/

/-- Auxiliary induction for C5: as soon as the remaining edge list holds an
edge that passes every filter but has an `Unknown` endpoint, the builder
returns the empty graph, whatever was accumulated before. -/
theorem buildSkel_unknown_empty (sqrtQ : ℚ → ℚ) (vd : VD) (lines : List Line) :
    ∀ (es : List Edge) (k : ℕ) (g : Graph),
      (∃ p ∈ enumFrom k es, passFilters vd p.1 p.2 ∧ unknownAt vd p.2) →
      buildSkel sqrtQ vd lines k es g = [] := by
  intro es
  induction es with
  | nil =>
    intro k g h
    simp [enumFrom] at h
  | cons e rest ih =>
    intro k g h
    obtain ⟨p, hp, hpass, hunk⟩ := h
    rw [enumFrom] at hp
    rw [buildSkel]
    rcases List.mem_cons.mp hp with hhead | htail
    · subst hhead
      obtain ⟨h1, h2, h3, h4, h5, h6⟩ := hpass
      have h1' : e.secondary = false := h1
      have h2' : e.finite = true := h2
      have h3' : ¬e.twin < k := h3
      have h4' : e.cat = EdgeCategory.PointsInside ∨ twinCat vd e = EdgeCategory.PointsInside := h4
      have h5' : vertexCat vd e.v0 ≠ VertexCategory.Outside := h5
      have h6' : vertexCat vd e.v1 ≠ VertexCategory.Outside := h6
      have hunk' : vertexCat vd e.v0 = VertexCategory.Unknown ∨
          vertexCat vd e.v1 = VertexCategory.Unknown := hunk
      rw [if_neg, if_neg, if_pos hunk']
      · exact fun h => h.elim (fun h => h5' h) (fun h => h6' h)
      · rintro (hc | hc | hc | hc)
        · rw [h1'] at hc; exact Bool.false_ne_true hc
        · rw [h2'] at hc; cases hc
        · exact h3' hc
        · rcases h4' with h4' | h4'
          · exact hc.1 h4'
          · exact hc.2 h4'
    · have hrest : ∃ p ∈ enumFrom (k + 1) rest, passFilters vd p.1 p.2 ∧ unknownAt vd p.2 :=
        ⟨p, htail, hpass, hunk⟩
      split
      · exact ih (k + 1) g hrest
      · split
        · exact ih (k + 1) g hrest
        · split
          · rfl
          · exact ih (k + 1) _ hrest

/-- C5: whenever some diagram edge passes the filters of `getSkeleton`
(primary, finite, not a skipped twin, no endpoint `Outside`) but has an
endpoint classified `Unknown`, `getSkeleton` returns the empty skeleton.
The embedding is a total function, so no exception is involved: the
violation is signalled only by the empty result. -/
theorem C5_unknown_endpoint_empty_skeleton (sqrtQ : ℚ → ℚ) (vd : VD) (lines : List Line)
    (h : ∃ p ∈ enumFrom 0 vd.edges, passFilters vd p.1 p.2 ∧ unknownAt vd p.2) :
    getSkeleton sqrtQ vd lines = [] :=
  buildSkel_unknown_empty sqrtQ vd lines vd.edges 0 [] h

/-- Witness for C5 at a concrete annotated diagram. -/
theorem C5_witness : getSkeleton (fun q => q) vdC5 [] = [] :=
  C5_unknown_endpoint_empty_skeleton (fun q => q) vdC5 []
    ⟨(0, ⟨0, 1, 1, false, true, true, EdgeCategory.PointsInside, 0⟩),
     by decide, by decide, by decide⟩

/-! ## C10: get_edge_point clamps its ratio at the endpoints -/

/-- C10: `get_edge_point` returns vertex 0's point for every ratio at most
machine epsilon, vertex 1's point for every ratio at least one minus
epsilon, and for a ratio strictly between those bounds a point on the
segment between the endpoints of a linear edge (and vertex 0's point for a
curved edge), so an interpolated sample never lies outside the edge's
endpoints. -/
theorem C10_edge_point_clamped (vd : VD) (eidx : ℕ) (e : Edge) (ratio : ℚ)
    (he : vd.edges[eidx]? = some e) :
    (ratio ≤ eps → get_edge_point vd eidx ratio = vpos vd e.v0) ∧
    (1 - eps ≤ ratio → get_edge_point vd eidx ratio = vpos vd e.v1) ∧
    (eps < ratio → ratio < 1 - eps → e.linear = true →
      ∃ t : ℚ, 0 ≤ t ∧ t ≤ 1 ∧
        get_edge_point vd eidx ratio =
          ((vpos vd e.v0).1 + t * ((vpos vd e.v1).1 - (vpos vd e.v0).1),
           (vpos vd e.v0).2 + t * ((vpos vd e.v1).2 - (vpos vd e.v0).2))) ∧
    (eps < ratio → ratio < 1 - eps → e.linear = false →
      get_edge_point vd eidx ratio = vpos vd e.v0) := by
  have heps : (0 : ℚ) < eps := by norm_num [eps]
  have heps2 : eps < 1 - eps := by norm_num [eps]
  simp only [get_edge_point, he]
  refine ⟨?_, ?_, ?_, ?_⟩
  · intro h
    rw [if_pos h]
  · intro h
    rw [if_neg (by linarith), if_pos h]
  · intro h1 h2 h3
    refine ⟨ratio, by linarith, by linarith, ?_⟩
    rw [if_neg (by linarith), if_neg (by linarith), h3]
    simp
  · intro h1 h2 h3
    rw [if_neg (by linarith), if_neg (by linarith), h3]
    simp

/-- Witness for C10: the clamp at ratio `0` on a concrete edge. -/
theorem C10_witness : get_edge_point vdC10 0 0 = vpos vdC10 0 :=
  (C10_edge_point_clamped vdC10 0 ⟨0, 1, 1, false, true, true, EdgeCategory.PointsInside, 0⟩
    0 rfl).1 (by norm_num [eps])

/-! ## C9: single-node skeleton -/

/-- C9 (code bug): on a skeleton consisting of the single node at (5, 7)
and no edges, the sampler returns the origin `(0, 0)` — the fallback that
`get_center_of_path` reaches after `assert(false)` — and not the node's own
position `(5, 7)` demanded by the spec. -/
theorem C9_single_node_returns_origin :
    sample_voronoi_graph vdC9 gC9 cfgC9 (fun _ => spec_explore_single 0) =
      [((0 : ℚ), (0 : ℚ))] ∧
    vpos vdC9 0 = ((5 : ℚ), (7 : ℚ)) := by
  constructor
  · rfl
  · rfl

/-! ## C3: reshape idempotence -/

/-- Walking nodes `l` from a state whose branches satisfy the fixed-point
condition leaves the path, the stored length and the branch map of the
state untouched. -/
theorem reshape_foldl_stable (g : Graph) :
    ∀ (l : List ℕ) (sb : SBMap) (prev : Option ℕ) (act : ℚ) (p0 : List ℕ) (L0 : ℚ) (i : ℕ),
      stableAux g sb prev act l = true →
      (l.foldl (reshape_step g) ⟨p0, L0, sb, i, act, prev⟩).path = p0 ∧
      (l.foldl (reshape_step g) ⟨p0, L0, sb, i, act, prev⟩).length = L0 ∧
      (l.foldl (reshape_step g) ⟨p0, L0, sb, i, act, prev⟩).branches = sb := by
  intro l
  induction l with
  | nil =>
    intro sb prev act p0 L0 i h
    exact ⟨rfl, rfl, rfl⟩
  | cons n rest ih =>
    intro sb prev act p0 L0 i h
    rw [List.foldl_cons]
    cases prev with
    | none =>
      have h' : (match sbFind sb n with
          | none => stableAux g sb (some n) act rest
          | some bs =>
            if (sbTop bs).length ≤ act then stableAux g sb (some n) act rest
            else false) = true := h
      cases hsf : sbFind sb n with
      | none =>
        rw [hsf] at h'
        simp only [reshape_step, hsf]
        exact ih sb (some n) act p0 L0 i h'
      | some bs =>
        rw [hsf] at h'
        have h2 : (if (sbTop bs).length ≤ act then stableAux g sb (some n) act rest
            else false) = true := h'
        simp only [reshape_step, hsf]
        by_cases htop : (sbTop bs).length ≤ act
        · rw [if_pos htop] at h2 ⊢
          exact ih sb (some n) act p0 L0 i h2
        · rw [if_neg htop] at h2
          cases h2
    | some p =>
      have h' : (match sbFind sb n with
          | none => stableAux g sb (some n) (act + nbDist g p n) rest
          | some bs =>
            if (sbTop bs).length ≤ act + nbDist g p n then
              stableAux g sb (some n) (act + nbDist g p n) rest
            else false) = true := h
      cases hsf : sbFind sb n with
      | none =>
        rw [hsf] at h'
        simp only [reshape_step, hsf]
        exact ih sb (some n) (act + nbDist g p n) p0 L0 (i + 1) h'
      | some bs =>
        rw [hsf] at h'
        have h2 : (if (sbTop bs).length ≤ act + nbDist g p n then
              stableAux g sb (some n) (act + nbDist g p n) rest
            else false) = true := h'
        simp only [reshape_step, hsf]
        by_cases htop : (sbTop bs).length ≤ act + nbDist g p n
        · rw [if_pos htop] at h2 ⊢
          exact ih sb (some n) (act + nbDist g p n) p0 L0 (i + 1) h2
        · rw [if_neg htop] at h2
          cases h2

/-- C3 (amended): `reshape_longest_path` leaves the main path's node
sequence and its stored length identical whenever the extended path already
satisfies the fixed-point condition: no node along the main path owns a
side branch strictly longer than the arc length walked from the start to
that node.  In particular a second application after a first one is the
identity exactly when the first call's output satisfies this condition;
for arbitrary extended paths a first call can leave the condition violated
on the spliced-in prefix (see the counterexample). -/
theorem C3_reshape_fixed_point (g : Graph) (ex : ExPath) (h : stableWalk g ex = true) :
    (reshape_longest_path g ex).path = ex.path ∧
    (reshape_longest_path g ex).length = ex.length := by
  have hs := reshape_foldl_stable g ex.path ex.side_branches none 0 ex.path ex.length 0 h
  simp only [reshape_longest_path]
  exact ⟨hs.1, hs.2.1⟩

/-- C3 (counterexample to the claim as stated): an extended path already
produced by one call of `reshape_longest_path` on which a second call
changes the main path again, so reshaping is not idempotent. -/
theorem C3_counterexample :
    (reshape_longest_path gC3 (reshape_longest_path gC3 exC3)).path ≠
      (reshape_longest_path gC3 exC3).path ∧
    (reshape_longest_path gC3 exC3).path = [4, 3, 1, 2] ∧
    (reshape_longest_path gC3 (reshape_longest_path gC3 exC3)).path = [5, 3, 1, 2] := by
  norm_num [reshape_longest_path, reshape_step, gC3, exC3, sbFind, sbTop, sbPop, sbPush,
    sbUpdate, nbDist, getNeighbor, lookupNode, List.find?]

/-- Witness for C3 at a concrete fixed-point input. -/
theorem C3_witness :
    (reshape_longest_path gC3w exC3w).path = exC3w.path ∧
    (reshape_longest_path gC3w exC3w).length = exC3w.length :=
  C3_reshape_fixed_point gC3w exC3w (by
    norm_num [stableWalk, stableAux, gC3w, exC3w, sbFind, sbTop, nbDist, getNeighbor,
      lookupNode, List.find?])

/-! ## C2: the splice condition of reshape_longest_path -/

/-- Appending a node to a nonempty walk adds the distance from the walk's
last node. -/
theorem walkedTotal_concat (g : Graph) :
    ∀ (l : List ℕ) (p n : ℕ), l.getLast? = some p →
      walkedTotal g (l ++ [n]) = walkedTotal g l + nbDist g p n := by
  intro l
  induction l with
  | nil =>
    intro p n h
    simp at h
  | cons a l ih =>
    intro p n h
    cases l with
    | nil =>
      simp at h
      subst h
      show walkedTotal g [a, n] = walkedTotal g [a] + nbDist g a n
      simp [walkedTotal]
    | cons b l' =>
      rw [List.getLast?_cons_cons] at h
      show walkedTotal g (a :: b :: (l' ++ [n])) = walkedTotal g (a :: b :: l') + nbDist g p n
      rw [walkedTotal, walkedTotal]
      rw [show walkedTotal g (b :: (l' ++ [n])) = walkedTotal g (b :: l') + nbDist g p n from
        ih p n h]
      rw [add_assoc]

/-- C2 (amended): walking the main path, at a node `n` owning side
branches and reached with no earlier splice, `reshape_longest_path`
splices exactly when the longest recorded side branch at `n` is strictly
longer than the main-path arc length already walked from the start to `n`
(not the remaining length to the end); on a splice the walked portion of
the main path is reversed and stored back as a side branch at `n` with the
walked length, the popped branch (reversed) replaces that walked portion
in the main path, and the stored total length is updated by subtracting
the walked length and adding the branch length. -/
theorem C2_splice_iff_branch_longer_than_walked (g : Graph) (ex : ExPath)
    (pre post : List ℕ) (n : ℕ) (bs : SideBranches)
    (hpath : ex.path = pre ++ n :: post)
    (hpre : pre.foldl (reshape_step g) ⟨ex.path, ex.length, ex.side_branches, 0, 0, none⟩ =
      plainAdvance g ex pre)
    (hbs : sbFind ex.side_branches n = some bs) :
    ((sbTop bs).length ≤ walkedTotal g (pre ++ [n]) →
      (pre ++ [n]).foldl (reshape_step g) ⟨ex.path, ex.length, ex.side_branches, 0, 0, none⟩ =
        plainAdvance g ex (pre ++ [n])) ∧
    (walkedTotal g (pre ++ [n]) < (sbTop bs).length →
      (pre ++ [n]).foldl (reshape_step g) ⟨ex.path, ex.length, ex.side_branches, 0, 0, none⟩ =
        ⟨(sbTop bs).path.reverse ++ n :: post,
         ex.length + (sbTop bs).length - walkedTotal g (pre ++ [n]),
         sbUpdate ex.side_branches n (sbPush (sbPop bs) ⟨pre.reverse, walkedTotal g (pre ++ [n])⟩),
         (sbTop bs).path.reverse.length,
         (sbTop bs).length,
         some n⟩) := by
  have hfold : (pre ++ [n]).foldl (reshape_step g)
      ⟨ex.path, ex.length, ex.side_branches, 0, 0, none⟩ =
      reshape_step g (plainAdvance g ex pre) n := by
    rw [List.foldl_append, hpre, List.foldl_cons, List.foldl_nil]
  cases pre with
  | nil =>
    have hW : walkedTotal g ([] ++ [n]) = 0 := rfl
    constructor
    · intro htop
      rw [hfold]
      show reshape_step g ⟨ex.path, ex.length, ex.side_branches, 0, 0, none⟩ n =
        plainAdvance g ex [n]
      simp only [reshape_step, hbs]
      rw [hW] at htop
      rw [if_pos htop]
      rfl
    · intro htop
      rw [hfold]
      show reshape_step g ⟨ex.path, ex.length, ex.side_branches, 0, 0, none⟩ n = _
      simp only [reshape_step, hbs]
      rw [hW] at htop
      rw [if_neg (not_le.mpr htop)]
      rw [hW]
      simp [hpath]
  | cons a pre' =>
    have hne : a :: pre' ≠ [] := List.cons_ne_nil a pre'
    obtain ⟨p, hlast⟩ : ∃ p, (a :: pre').getLast? = some p :=
      ⟨(a :: pre').getLast hne, List.getLast?_eq_getLast _ hne⟩
    have hW : walkedTotal g ((a :: pre') ++ [n]) =
        walkedTotal g (a :: pre') + nbDist g p n :=
      walkedTotal_concat g (a :: pre') p n hlast
    have hstep : reshape_step g (plainAdvance g ex (a :: pre')) n =
        (if (sbTop bs).length ≤ walkedTotal g ((a :: pre') ++ [n]) then
          (⟨ex.path, ex.length, ex.side_branches, (a :: pre').length,
            walkedTotal g ((a :: pre') ++ [n]), some n⟩ : ReshapeState)
        else
          ⟨(sbTop bs).path.reverse ++ List.drop (a :: pre').length ex.path,
           ex.length + (sbTop bs).length - walkedTotal g ((a :: pre') ++ [n]),
           sbUpdate ex.side_branches n
             (sbPush (sbPop bs)
               ⟨(List.take (a :: pre').length ex.path).reverse,
                walkedTotal g ((a :: pre') ++ [n])⟩),
           (sbTop bs).path.reverse.length,
           (sbTop bs).length,
           some n⟩) := by
      simp only [reshape_step, plainAdvance, hlast, hbs, hW]
      simp [List.length_cons]
    constructor
    · intro htop
      rw [hfold, hstep, if_pos htop]
      show _ = plainAdvance g ex ((a :: pre') ++ [n])
      simp only [plainAdvance]
      rw [List.getLast?_concat]
      simp
    · intro htop
      rw [hfold, hstep, if_neg (not_le.mpr htop)]
      rw [hpath, List.take_left, List.drop_left]

/-- C2 (counterexample to the claim as stated): node 1 is the only node of
`exC2` owning side branches; its longest branch (length 5) does not exceed
the remaining main-path length from node 1 to the end
(`walkedTotal gC2 [1, 2] = 10`), so by the claim no splice should happen —
yet `reshape_longest_path` replaces the walked prefix by the branch
(the code compares against the already-walked length 1). -/
theorem C2_counterexample :
    (sbTop ((sbFind exC2.side_branches 1).getD [])).length ≤ walkedTotal gC2 [1, 2] ∧
    sbFind exC2.side_branches 0 = none ∧
    sbFind exC2.side_branches 2 = none ∧
    exC2.path = [0, 1, 2] ∧
    (reshape_longest_path gC2 exC2).path = [3, 1, 2] ∧
    (reshape_longest_path gC2 exC2).length = 15 := by
  norm_num [reshape_longest_path, reshape_step, gC2, exC2, sbFind, sbTop, sbPop, sbPush,
    sbUpdate, nbDist, getNeighbor, lookupNode, walkedTotal, List.find?]

/-- Witness for C2: the amended splice characterization applied to the
concrete input of the counterexample (branch length 5 exceeds the walked
length 1, so the state after passing node 1 is the spliced one). -/
theorem C2_witness :
    ([0, 1] : List ℕ).foldl (reshape_step gC2)
        ⟨exC2.path, exC2.length, exC2.side_branches, 0, 0, none⟩ =
      ⟨[3, 1, 2], 15, sbUpdate exC2.side_branches 1 (sbPush (sbPop [⟨[3], 5⟩]) ⟨[0], 1⟩),
       1, 5, some 1⟩ := by
  have h := (C2_splice_iff_branch_longer_than_walked gC2 exC2 [0] [2] 1 [⟨[3], 5⟩]
    rfl
    (by norm_num [reshape_step, plainAdvance, exC2, gC2, sbFind, walkedTotal, List.find?])
    (by rfl)).2
    (by norm_num [walkedTotal, nbDist, getNeighbor, lookupNode, gC2, sbTop, List.find?])
  have h2 : ([0] : List ℕ) ++ [1] = [0, 1] := rfl
  rw [h2] at h
  rw [h]
  norm_num [sbTop, walkedTotal, nbDist, getNeighbor, lookupNode, gC2, exC2, List.find?]

/-! ## C1: longest path on an isolated circle -/

/-- The initial accumulator bounds a max-fold from below. -/
theorem le_foldl_max : ∀ (l : List ℚ) (a : ℚ), a ≤ l.foldl max a := by
  intro l
  induction l with
  | nil => intro a; exact le_refl a
  | cons x l ih =>
    intro a
    exact le_trans (le_max_left a x) (ih (max a x))

/-- Every member bounds a max-fold from below. -/
theorem mem_le_foldl_max : ∀ (l : List ℚ) (a v : ℚ), v ∈ l → v ≤ l.foldl max a := by
  intro l
  induction l with
  | nil =>
    intro a v hv
    cases hv
  | cons x l ih =>
    intro a v hv
    rcases List.mem_cons.mp hv with h | h
    · subst h
      exact le_trans (le_max_right a v) (le_foldl_max l (max a v))
    · exact ih (max a x) v h

/-- Fold form of the circle scan: starting from any state whose reverse
flag is sound for the accumulated distance, the best length after the scan
is the max-fold of the branch values (branch length plus the shorter of the
two arc distances) over the remaining walk. -/
theorem circleScan_foldl (g : Graph) (sb : SBMap) (L : ℚ) :
    ∀ (l : List ℕ) (prev : Option ℕ) (d : ℚ) (flag : Bool) (bLen : ℚ)
      (bNode : Option ℕ) (bRev : Bool),
      walkMonoB g prev l = true →
      (flag = true → L / 2 < d) →
      (l.foldl (circleScanStep g sb L) ⟨prev, d, flag, bLen, bNode, bRev⟩).bestLen =
        (valsFrom g sb L prev d l).foldl max bLen := by
  intro l
  induction l with
  | nil =>
    intro prev d flag bLen bNode bRev hm hf
    rfl
  | cons n rest ih =>
    intro prev d flag bLen bNode bRev hm hf
    rw [List.foldl_cons]
    cases prev with
    | none =>
      have hmrest : walkMonoB g (some n) rest = true := by
        have hm' : (true && walkMonoB g (some n) rest) = true := hm
        simpa using hm'
      cases hsf : sbFind sb n with
      | none =>
        simp only [circleScanStep, hsf]
        rw [ih (some n) d flag bLen bNode bRev hmrest hf]
        simp [valsFrom, circleWalk, hsf]
      | some bs =>
        simp only [circleScanStep, hsf]
        have hval : (sbTop bs).length + (if (if L / 2 < d then true else flag) = true
            then L - d else d) = (sbTop bs).length + min d (L - d) := by
          by_cases hc : L / 2 < d
          · rw [if_pos hc, if_pos rfl, min_eq_right (by linarith)]
          · rw [if_neg hc]
            cases hflag : flag with
            | true => exact absurd (hf hflag) hc
            | false =>
              simp only [Bool.false_eq_true, if_false]
              rw [min_eq_left (by push_neg at hc; linarith)]
        have hflag2 : ((if L / 2 < d then true else flag) = true) → L / 2 < d := by
          by_cases hc : L / 2 < d
          · intro _; exact hc
          · rw [if_neg hc]
            intro hflag
            exact absurd (hf hflag) hc
        have hvals : valsFrom g sb L none d (n :: rest) =
            ((sbTop bs).length + min d (L - d)) :: valsFrom g sb L (some n) d rest := by
          simp [valsFrom, circleWalk, hsf]
        have hup2 : bLen < (sbTop bs).length + min d (L - d) ↔
            bLen < (sbTop bs).length + (if (if L / 2 < d then true else flag) = true
              then L - d else d) := by
          rw [hval]
        by_cases hup : bLen < (sbTop bs).length + (if (if L / 2 < d then true else flag) = true
            then L - d else d)
        · rw [if_pos hup]
          rw [ih (some n) d _ _ (some n) _ hmrest hflag2]
          rw [hvals, List.foldl_cons]
          congr 1
          rw [hval]
          exact (max_eq_right (le_of_lt (hup2.mpr hup))).symm
        · rw [if_neg hup]
          rw [ih (some n) d _ _ bNode bRev hmrest hflag2]
          rw [hvals, List.foldl_cons]
          congr 1
          exact (max_eq_left (not_lt.mp (fun hc => hup (hup2.mp hc)))).symm
    | some p =>
      have hm' : (decide (0 ≤ nbDist g n p) && walkMonoB g (some n) rest) = true := hm
      have hstep : (0 ≤ nbDist g n p) ∧ walkMonoB g (some n) rest = true := by
        constructor
        · exact of_decide_eq_true ((Bool.and_eq_true _ _).mp hm').1
        · exact ((Bool.and_eq_true _ _).mp hm').2
      have hfd : flag = true → L / 2 < d + nbDist g n p := by
        intro hflag
        have := hf hflag
        have := hstep.1
        linarith
      cases hsf : sbFind sb n with
      | none =>
        simp only [circleScanStep, hsf]
        rw [ih (some n) (d + nbDist g n p) flag bLen bNode bRev hstep.2 hfd]
        simp [valsFrom, circleWalk, hsf]
      | some bs =>
        simp only [circleScanStep, hsf]
        set d2 := d + nbDist g n p with hd2
        have hval : (sbTop bs).length + (if (if L / 2 < d2 then true else flag) = true
            then L - d2 else d2) = (sbTop bs).length + min d2 (L - d2) := by
          by_cases hc : L / 2 < d2
          · rw [if_pos hc, if_pos rfl, min_eq_right (by linarith)]
          · rw [if_neg hc]
            cases hflag : flag with
            | true => exact absurd (hfd hflag) hc
            | false =>
              simp only [Bool.false_eq_true, if_false]
              rw [min_eq_left (by push_neg at hc; linarith)]
        have hflag2 : ((if L / 2 < d2 then true else flag) = true) → L / 2 < d2 := by
          by_cases hc : L / 2 < d2
          · intro _; exact hc
          · rw [if_neg hc]
            intro hflag
            exact absurd (hfd hflag) hc
        have hvals : valsFrom g sb L (some p) d (n :: rest) =
            ((sbTop bs).length + min d2 (L - d2)) :: valsFrom g sb L (some n) d2 rest := by
          simp [valsFrom, circleWalk, hsf, hd2]
        have hup2 : bLen < (sbTop bs).length + min d2 (L - d2) ↔
            bLen < (sbTop bs).length + (if (if L / 2 < d2 then true else flag) = true
              then L - d2 else d2) := by
          rw [hval]
        by_cases hup : bLen < (sbTop bs).length + (if (if L / 2 < d2 then true else flag) = true
            then L - d2 else d2)
        · rw [if_pos hup]
          rw [ih (some n) d2 _ _ (some n) _ hstep.2 hflag2]
          rw [hvals, List.foldl_cons]
          congr 1
          rw [hval]
          exact (max_eq_right (le_of_lt (hup2.mpr hup))).symm
        · rw [if_neg hup]
          rw [ih (some n) d2 _ _ bNode bRev hstep.2 hflag2]
          rw [hvals, List.foldl_cons]
          congr 1
          exact (max_eq_left (not_lt.mp (fun hc => hup (hup2.mp hc)))).symm

/-- A scan step never clears the recorded best node. -/
theorem circleScanStep_some_mono (g : Graph) (sb : SBMap) (L : ℚ) (s : CircleScan) (n x : ℕ)
    (h : s.bestNode = some x) : ∃ y, (circleScanStep g sb L s n).bestNode = some y := by
  simp only [circleScanStep]
  split
  · exact ⟨x, h⟩
  · repeat' split
    all_goals first | exact ⟨n, rfl⟩ | exact ⟨x, h⟩

/-- A whole scan never clears the recorded best node. -/
theorem circleScan_some_mono (g : Graph) (sb : SBMap) (L : ℚ) :
    ∀ (l : List ℕ) (s : CircleScan) (x : ℕ), s.bestNode = some x →
      ∃ y, (l.foldl (circleScanStep g sb L) s).bestNode = some y := by
  intro l
  induction l with
  | nil =>
    intro s x h
    exact ⟨x, h⟩
  | cons n rest ih =>
    intro s x h
    rw [List.foldl_cons]
    obtain ⟨y, hy⟩ := circleScanStep_some_mono g sb L s n x h
    exact ih _ y hy

/-- A scan step whose result has no best node kept the best length. -/
theorem circleScanStep_none_len (g : Graph) (sb : SBMap) (L : ℚ) (s : CircleScan) (n : ℕ)
    (h : (circleScanStep g sb L s n).bestNode = none) :
    (circleScanStep g sb L s n).bestLen = s.bestLen := by
  revert h
  simp only [circleScanStep]
  split
  · intro h
    rfl
  · repeat' split
    all_goals intro h
    all_goals first | cases h | rfl

/-- A scan that records no best node leaves the best length at its initial
value. -/
theorem circleScan_none (g : Graph) (sb : SBMap) (L : ℚ) :
    ∀ (l : List ℕ) (s : CircleScan),
      (l.foldl (circleScanStep g sb L) s).bestNode = none →
      (l.foldl (circleScanStep g sb L) s).bestLen = s.bestLen := by
  intro l
  induction l with
  | nil =>
    intro s h
    rfl
  | cons n rest ih =>
    intro s h
    rw [List.foldl_cons] at h ⊢
    have hstepnone : (circleScanStep g sb L s n).bestNode = none := by
      cases hbn : (circleScanStep g sb L s n).bestNode with
      | none => rfl
      | some x =>
        obtain ⟨y, hy⟩ := circleScan_some_mono g sb L rest _ x hbn
        rw [h] at hy
        cases hy
    rw [ih _ h, circleScanStep_none_len g sb L s n hstepnone]

/-- C1 (amended): for an isolated circle whose walk only adds non-negative
arc lengths and which owns at least one side branch of positive value,
`find_longest_path_on_circle` returns a path whose length is the maximum,
over all circle nodes owning a side branch, of the longest stored branch
length plus the *shorter* of (running arc length from the circle's start,
circle length minus that running arc length) — not the longer, as the
claim states. -/
theorem C1_circle_length_max_branch_plus_shorter_arc (g : Graph) (circle : Circle) (sb : SBMap)
    (hmono : walkMonoB g none circle.path = true)
    (hpos : ∃ v ∈ branchValsShorter g circle sb, 0 < v) :
    (find_longest_path_on_circle g circle sb).length =
      (branchValsShorter g circle sb).foldl max 0 := by
  obtain ⟨v, hv, hvpos⟩ := hpos
  have hfold := circleScan_foldl g sb circle.length circle.path none 0 false 0 none false hmono
    (fun h => absurd h (by simp))
  cases hbn : (circle.path.foldl (circleScanStep g sb circle.length)
      ⟨none, 0, false, 0, none, false⟩).bestNode with
  | none =>
    exfalso
    have h0 := circleScan_none g sb circle.length circle.path _ hbn
    rw [hfold] at h0
    have hle := mem_le_foldl_max (valsFrom g sb circle.length none 0 circle.path) 0 v hv
    rw [h0] at hle
    simp only [] at hle
    have hle2 : v ≤ 0 := hle
    linarith
  | some bn =>
    simp only [find_longest_path_on_circle]
    rw [hbn]
    exact hfold

/-- C1 (counterexample to the claim as stated): on the concrete isolated
circle `cC1` (stored length 10) with one side branch of length 5 at node 1
reached at running arc length 1, the code returns length
`5 + min 1 9 = 6`, while the claim's formula (branch plus the longer
direction) gives `5 + max 1 9 = 14`. -/
theorem C1_counterexample :
    (find_longest_path_on_circle gC1 cC1 sbC1).length = 6 ∧
    (branchValsLonger gC1 cC1 sbC1).foldl max 0 = 14 := by
  constructor
  · norm_num [find_longest_path_on_circle, circleScanStep, gC1, cC1, sbC1, sbFind, sbTop,
      nbDist, getNeighbor, lookupNode, List.find?]
  · norm_num [branchValsLonger, circleWalk, sbFind, sbTop, nbDist, getNeighbor, lookupNode,
      gC1, cC1, sbC1, List.find?, List.filterMap_cons]

/-- Witness for C1 at the concrete circle. -/
theorem C1_witness : (find_longest_path_on_circle gC1 cC1 sbC1).length = 6 := by
  rw [C1_circle_length_max_branch_plus_shorter_arc gC1 cC1 sbC1
    (by norm_num [walkMonoB, nbDist, getNeighbor, lookupNode, gC1, cC1, List.find?])
    ⟨6, by norm_num [branchValsShorter, circleWalk, sbFind, sbTop, nbDist, getNeighbor,
        lookupNode, gC1, cC1, sbC1, List.find?, List.filterMap_cons], by norm_num⟩]
  norm_num [branchValsShorter, circleWalk, sbFind, sbTop, nbDist, getNeighbor, lookupNode,
    gC1, cC1, sbC1, List.find?, List.filterMap_cons]

/-! ## C6: symmetric neighbor records -/

/-- Lookup on a cons cell. -/
theorem lookupNode_cons (k : ℕ) (nd : Node) (g : Graph) (a : ℕ) :
    lookupNode ((k, nd) :: g) a = if k = a then some nd else lookupNode g a := by
  by_cases h : k = a
  · simp [lookupNode, List.find?, h]
  · simp [lookupNode, List.find?, h]

/-- Lookup distributes over append. -/
theorem lookupNode_append (g1 g2 : Graph) (a : ℕ) :
    lookupNode (g1 ++ g2) a =
      match lookupNode g1 a with
      | some nd => some nd
      | none => lookupNode g2 a := by
  induction g1 with
  | nil => simp [lookupNode]
  | cons p g1 ih =>
    obtain ⟨k, nd⟩ := p
    by_cases h : k = a
    · rw [List.cons_append, lookupNode_cons, lookupNode_cons, if_pos h, if_pos h]
    · rw [List.cons_append, lookupNode_cons, lookupNode_cons, if_neg h, if_neg h, ih]

/-- Lookup after `addNeighbor`: the stored node gains the record exactly at
the modified vertex. -/
theorem lookupNode_addNeighbor (g : Graph) (v : ℕ) (nb : Neighbor) (a : ℕ) :
    lookupNode (addNeighbor g v nb) a =
      (lookupNode g a).map
        (fun nd => if a = v then ⟨nd.vertex, nd.distance, nd.neighbors ++ [nb]⟩ else nd) := by
  induction g with
  | nil => simp [lookupNode, addNeighbor]
  | cons p g ih =>
    obtain ⟨k, nd⟩ := p
    have hcons : addNeighbor ((k, nd) :: g) v nb =
        (if k = v then (k, ⟨nd.vertex, nd.distance, nd.neighbors ++ [nb]⟩) else (k, nd)) ::
          addNeighbor g v nb := by
      simp [addNeighbor]
    rw [hcons]
    by_cases hkv : k = v
    · rw [if_pos hkv]
      by_cases hka : k = a
      · rw [lookupNode_cons, if_pos hka, lookupNode_cons, if_pos hka]
        simp [show a = v from hka ▸ hkv]
      · rw [lookupNode_cons, if_neg hka, lookupNode_cons, if_neg hka, ih]
    · rw [if_neg hkv]
      by_cases hka : k = a
      · rw [lookupNode_cons, if_pos hka, lookupNode_cons, if_pos hka]
        simp [show ¬(a = v) from fun h => hkv (by rw [hka, h])]
      · rw [lookupNode_cons, if_neg hka, lookupNode_cons, if_neg hka, ih]

/-- `nbsTo` through the stored node. -/
theorem nbsTo_eq (g : Graph) (a b : ℕ) :
    nbsTo g a b =
      ((lookupNode g a).map
        (fun nd => nd.neighbors.filter (fun nb => nb.node = b))).getD [] := by
  cases h : lookupNode g a <;> simp [nbsTo, neighborsOf, h]

/-- Effect of `addNeighbor` on the records from `a` to `b`. -/
theorem nbsTo_addNeighbor (g : Graph) (v : ℕ) (nb : Neighbor) (a b : ℕ) :
    nbsTo (addNeighbor g v nb) a b =
      nbsTo g a b ++
        (if a = v ∧ nb.node = b ∧ (lookupNode g a).isSome = true then [nb] else []) := by
  rw [nbsTo_eq, nbsTo_eq, lookupNode_addNeighbor]
  cases h : lookupNode g a with
  | none => simp
  | some nd =>
    by_cases hav : a = v
    · by_cases hb : nb.node = b
      · simp [hav, hb, List.filter_append]
      · simp [hav, hb, List.filter_append]
    · simp [hav]

/-- `ensureNode` does not change any `nbsTo` (a fresh node has no
neighbors). -/
theorem nbsTo_ensureNode (sqrtQ : ℚ → ℚ) (vd : VD) (lines : List Line) (g : Graph)
    (v : ℕ) (e : Edge) (a b : ℕ) :
    nbsTo (ensureNode sqrtQ vd lines g v e) a b = nbsTo g a b := by
  unfold ensureNode
  by_cases h : (lookupNode g v).isSome = true
  · rw [if_pos h]
  · rw [if_neg h]
    rw [nbsTo_eq, nbsTo_eq, lookupNode_append]
    cases hA : lookupNode g a with
    | some nd => simp
    | none =>
      rw [lookupNode_cons]
      by_cases hva : v = a
      · simp [hva]
      · simp [hva, lookupNode]

/-- `ensureNode` keeps every stored node present. -/
theorem present_ensureNode_mono (sqrtQ : ℚ → ℚ) (vd : VD) (lines : List Line) (g : Graph)
    (v : ℕ) (e : Edge) (a : ℕ) (h : (lookupNode g a).isSome = true) :
    (lookupNode (ensureNode sqrtQ vd lines g v e) a).isSome = true := by
  unfold ensureNode
  by_cases hp : (lookupNode g v).isSome = true
  · rw [if_pos hp]; exact h
  · rw [if_neg hp]
    rw [lookupNode_append]
    cases hA : lookupNode g a with
    | some nd => rfl
    | none => rw [hA] at h; cases h

/-- `ensureNode` makes its own vertex present. -/
theorem present_ensureNode_self (sqrtQ : ℚ → ℚ) (vd : VD) (lines : List Line) (g : Graph)
    (v : ℕ) (e : Edge) :
    (lookupNode (ensureNode sqrtQ vd lines g v e) v).isSome = true := by
  unfold ensureNode
  by_cases hp : (lookupNode g v).isSome = true
  · rw [if_pos hp]; exact hp
  · rw [if_neg hp]
    rw [lookupNode_append]
    cases hA : lookupNode g v with
    | some nd => rfl
    | none =>
      rw [lookupNode_cons]
      simp

/-- `addNeighbor` does not change which nodes are present. -/
theorem present_addNeighbor (g : Graph) (v : ℕ) (nb : Neighbor) (a : ℕ) :
    (lookupNode (addNeighbor g v nb) a).isSome = (lookupNode g a).isSome := by
  rw [lookupNode_addNeighbor]
  cases h : lookupNode g a <;> simp

/-- Effect of processing one accepted edge on the records from `a` to `b`:
nothing changes unless the edge connects `a` and `b`, in which case exactly
the record of `entryFor` is appended at `a`. -/
theorem nbsTo_processEdge (sqrtQ : ℚ → ℚ) (vd : VD) (lines : List Line) (g : Graph)
    (i : ℕ) (e : Edge) (a b : ℕ) (hab : a ≠ b) :
    nbsTo (processEdge sqrtQ vd lines g i e) a b =
      nbsTo g a b ++
        (if connectsFrom a b e then [entryFor sqrtQ vd a b (i, e)] else []) := by
  have hp0 : (lookupNode (ensureNode sqrtQ vd lines (ensureNode sqrtQ vd lines g e.v0 e) e.v1 e)
      e.v0).isSome = true :=
    present_ensureNode_mono sqrtQ vd lines _ e.v1 e e.v0
      (present_ensureNode_self sqrtQ vd lines g e.v0 e)
  have hp1 : (lookupNode (ensureNode sqrtQ vd lines (ensureNode sqrtQ vd lines g e.v0 e) e.v1 e)
      e.v1).isSome = true :=
    present_ensureNode_self sqrtQ vd lines _ e.v1 e
  show nbsTo (addNeighbor (addNeighbor (ensureNode sqrtQ vd lines
      (ensureNode sqrtQ vd lines g e.v0 e) e.v1 e) e.v0 ⟨i, edgeLen sqrtQ vd e, e.v1⟩)
      e.v1 ⟨e.twin, edgeLen sqrtQ vd e, e.v0⟩) a b = _
  rw [nbsTo_addNeighbor, present_addNeighbor, nbsTo_addNeighbor,
    nbsTo_ensureNode, nbsTo_ensureNode]
  by_cases hc : connectsFrom a b e
  · rcases hc with ⟨h0, h1⟩ | ⟨h0, h1⟩
    · subst h0
      subst h1
      have hm1 : ¬(e.v0 = e.v1 ∧
          (⟨e.twin, edgeLen sqrtQ vd e, e.v0⟩ : Neighbor).node = e.v1 ∧
          (lookupNode (ensureNode sqrtQ vd lines (ensureNode sqrtQ vd lines g e.v0 e) e.v1 e)
            e.v0).isSome = true) := by
        rintro ⟨ha, -, -⟩
        exact hab ha
      rw [if_pos ⟨rfl, rfl, hp0⟩, if_neg hm1,
        if_pos (show connectsFrom e.v0 e.v1 e from Or.inl ⟨rfl, rfl⟩)]
      simp [entryFor]
    · subst h0
      subst h1
      have hm0 : ¬(e.v1 = e.v0 ∧
          (⟨i, edgeLen sqrtQ vd e, e.v1⟩ : Neighbor).node = e.v0 ∧
          (lookupNode (ensureNode sqrtQ vd lines (ensureNode sqrtQ vd lines g e.v0 e) e.v1 e)
            e.v1).isSome = true) := by
        rintro ⟨ha, -, -⟩
        exact hab ha
      rw [if_neg hm0, if_pos ⟨rfl, rfl, hp1⟩,
        if_pos (show connectsFrom e.v1 e.v0 e from Or.inr ⟨rfl, rfl⟩)]
      simp [entryFor, Ne.symm hab]
  · have hm0 : ¬(a = e.v0 ∧
        (⟨i, edgeLen sqrtQ vd e, e.v1⟩ : Neighbor).node = b ∧
        (lookupNode (ensureNode sqrtQ vd lines (ensureNode sqrtQ vd lines g e.v0 e) e.v1 e)
          a).isSome = true) := by
      rintro ⟨ha, hb, -⟩
      exact hc (Or.inl ⟨ha.symm, hb⟩)
    have hm1 : ¬(a = e.v1 ∧
        (⟨e.twin, edgeLen sqrtQ vd e, e.v0⟩ : Neighbor).node = b ∧
        (lookupNode (ensureNode sqrtQ vd lines (ensureNode sqrtQ vd lines g e.v0 e) e.v1 e)
          a).isSome = true) := by
      rintro ⟨ha, hb, -⟩
      exact hc (Or.inr ⟨hb, ha.symm⟩)
    rw [if_neg hm0, if_neg hm1, if_neg hc]
    simp

/-- Accumulation invariant of the skeleton builder: when no reached edge
triggers the `Unknown` abort, the records from `a` to `b` are the initial
ones plus one `entryFor` record per accepted edge connecting `a` and `b`,
in edge order. -/
theorem nbsTo_buildSkel (sqrtQ : ℚ → ℚ) (vd : VD) (lines : List Line) (a b : ℕ) (hab : a ≠ b) :
    ∀ (es : List Edge) (k : ℕ) (g : Graph),
      (∀ p ∈ enumFrom k es, passFilters vd p.1 p.2 → ¬unknownAt vd p.2) →
      nbsTo (buildSkel sqrtQ vd lines k es g) a b =
        nbsTo g a b ++
          ((enumFrom k es).filter
            (fun p => decide (acceptedEdge vd p.1 p.2) && decide (connectsFrom a b p.2))).map
            (entryFor sqrtQ vd a b) := by
  intro es
  induction es with
  | nil =>
    intro k g h
    simp [buildSkel, enumFrom]
  | cons e rest ih =>
    intro k g h
    have hrest : ∀ p ∈ enumFrom (k + 1) rest, passFilters vd p.1 p.2 → ¬unknownAt vd p.2 := by
      intro p hp
      exact h p (by rw [enumFrom]; exact List.mem_cons_of_mem _ hp)
    rw [buildSkel, enumFrom]
    by_cases h1 : e.secondary = true ∨ e.finite = false ∨ e.twin < k ∨
        (e.cat ≠ EdgeCategory.PointsInside ∧ twinCat vd e ≠ EdgeCategory.PointsInside)
    · rw [if_pos h1, ih (k + 1) g hrest]
      have hna : ¬acceptedEdge vd k e := by
        rintro ⟨⟨hs, hf, ht, hcat, -, -⟩, -⟩
        rcases h1 with h1 | h1 | h1 | h1
        · rw [hs] at h1; cases h1
        · rw [hf] at h1; cases h1
        · exact ht h1
        · rcases hcat with hcat | hcat
          · exact h1.1 hcat
          · exact h1.2 hcat
      rw [List.filter_cons]
      simp [hna]
    · rw [if_neg h1]
      by_cases h2 : vertexCat vd e.v0 = VertexCategory.Outside ∨
          vertexCat vd e.v1 = VertexCategory.Outside
      · rw [if_pos h2, ih (k + 1) g hrest]
        have hna : ¬acceptedEdge vd k e := by
          rintro ⟨⟨-, -, -, -, ho0, ho1⟩, -⟩
          rcases h2 with h2 | h2
          · exact ho0 h2
          · exact ho1 h2
        rw [List.filter_cons]
        simp [hna]
      · rw [if_neg h2]
        push_neg at h1 h2
        have hpf : passFilters vd k e := by
          refine ⟨?_, ?_, not_lt.mpr h1.2.2.1, ?_, h2.1, h2.2⟩
          · cases hs : e.secondary with
            | false => rfl
            | true => exact absurd hs h1.1
          · cases hf : e.finite with
            | true => rfl
            | false => exact absurd hf h1.2.1
          · by_cases hcat : e.cat = EdgeCategory.PointsInside
            · exact Or.inl hcat
            · exact Or.inr (h1.2.2.2 hcat)
        have hnu : ¬unknownAt vd e :=
          h (k, e) (by rw [enumFrom]; exact List.mem_cons_self _ _) hpf
        have hnu' : ¬(vertexCat vd e.v0 = VertexCategory.Unknown ∨
            vertexCat vd e.v1 = VertexCategory.Unknown) := hnu
        rw [if_neg hnu']
        rw [ih (k + 1) (processEdge sqrtQ vd lines g k e) hrest]
        rw [nbsTo_processEdge sqrtQ vd lines g k e a b hab]
        have hacc : acceptedEdge vd k e := ⟨hpf, hnu⟩
        rw [List.filter_cons]
        by_cases hcn : connectsFrom a b e
        · simp [hacc, hcn, List.append_assoc, entryFor]
        · simp [hacc, hcn]

/-- A filter over a duplicate-free list whose predicate holds exactly at
one member yields that single member. -/
theorem filter_eq_singleton {α : Type} (pred : α → Bool) :
    ∀ (l : List α) (x : α), x ∈ l → l.Nodup → pred x = true →
      (∀ y ∈ l, pred y = true → y = x) → l.filter pred = [x] := by
  intro l
  induction l with
  | nil =>
    intro x hx
    cases hx
  | cons z l ih =>
    intro x hx hnd hpx hall
    rcases List.mem_cons.mp hx with h | h
    · subst h
      rw [List.filter_cons, if_pos hpx]
      have hrest : l.filter pred = [] := by
        rw [List.filter_eq_nil_iff]
        intro y hy hpy
        have hyx := hall y (List.mem_cons_of_mem _ hy) hpy
        subst hyx
        exact (List.nodup_cons.mp hnd).1 hy
      rw [hrest]
    · have hz : pred z = false := by
        cases hpz : pred z with
        | false => rfl
        | true =>
          have := hall z (List.mem_cons_self _ _) hpz
          subst this
          exact absurd h (List.nodup_cons.mp hnd).1
      rw [List.filter_cons, if_neg (by rw [hz]; exact Bool.false_ne_true)]
      exact ih x h (List.nodup_cons.mp hnd).2 hpx
        (fun y hy hpy => hall y (List.mem_cons_of_mem _ hy) hpy)

/-- Indices in `enumFrom k` are at least `k`. -/
theorem enumFrom_le : ∀ (es : List Edge) (k : ℕ) (p : ℕ × Edge), p ∈ enumFrom k es → k ≤ p.1 := by
  intro es
  induction es with
  | nil =>
    intro k p hp
    cases hp
  | cons e rest ih =>
    intro k p hp
    rw [enumFrom] at hp
    rcases List.mem_cons.mp hp with h | h
    · subst h
      exact le_refl k
    · exact le_trans (Nat.le_succ k) (ih (k + 1) p h)

/-- `enumFrom` yields pairwise distinct entries. -/
theorem enumFrom_nodup : ∀ (es : List Edge) (k : ℕ), (enumFrom k es).Nodup := by
  intro es
  induction es with
  | nil =>
    intro k
    exact List.nodup_nil
  | cons e rest ih =>
    intro k
    rw [enumFrom]
    refine List.nodup_cons.mpr ⟨?_, ih (k + 1)⟩
    intro hmem
    have := enumFrom_le rest (k + 1) (k, e) hmem
    exact absurd this (by simp)

/-- C6: for an accepted diagram edge connecting distinct vertices `a` and
`b` (and no other accepted edge connecting the same pair, as in a proper
Voronoi diagram), the skeleton holds exactly one neighbor record at `a`
referencing `b` and exactly one at `b` referencing `a`; both carry the same
length (`edgeLen`: the Euclidean distance for a linear edge, the
placeholder 1 for a curved edge), the record at `a` holds the edge itself
and the record at `b` its twin. -/
theorem C6_accepted_edge_symmetric_neighbors (sqrtQ : ℚ → ℚ) (vd : VD) (lines : List Line)
    (i : ℕ) (e : Edge) (a b : ℕ)
    (hnu : ∀ p ∈ enumFrom 0 vd.edges, passFilters vd p.1 p.2 → ¬unknownAt vd p.2)
    (hmem : (i, e) ∈ enumFrom 0 vd.edges)
    (hacc : acceptedEdge vd i e)
    (hv0 : e.v0 = a) (hv1 : e.v1 = b) (hab : a ≠ b)
    (huniq : ∀ p ∈ enumFrom 0 vd.edges, acceptedEdge vd p.1 p.2 → connectsFrom a b p.2 →
      p = (i, e)) :
    nbsTo (getSkeleton sqrtQ vd lines) a b = [⟨i, edgeLen sqrtQ vd e, b⟩] ∧
    nbsTo (getSkeleton sqrtQ vd lines) b a = [⟨e.twin, edgeLen sqrtQ vd e, a⟩] := by
  have hfilterAB : (enumFrom 0 vd.edges).filter
      (fun p => decide (acceptedEdge vd p.1 p.2) && decide (connectsFrom a b p.2)) = [(i, e)] := by
    apply filter_eq_singleton _ _ _ hmem (enumFrom_nodup vd.edges 0)
    · simp only [Bool.and_eq_true, decide_eq_true_eq]
      exact ⟨hacc, Or.inl ⟨hv0, hv1⟩⟩
    · intro y hy hpy
      simp only [Bool.and_eq_true, decide_eq_true_eq] at hpy
      exact huniq y hy hpy.1 hpy.2
  have hfilterBA : (enumFrom 0 vd.edges).filter
      (fun p => decide (acceptedEdge vd p.1 p.2) && decide (connectsFrom b a p.2)) = [(i, e)] := by
    apply filter_eq_singleton _ _ _ hmem (enumFrom_nodup vd.edges 0)
    · simp only [Bool.and_eq_true, decide_eq_true_eq]
      exact ⟨hacc, Or.inr ⟨hv0, hv1⟩⟩
    · intro y hy hpy
      simp only [Bool.and_eq_true, decide_eq_true_eq] at hpy
      refine huniq y hy hpy.1 ?_
      rcases hpy.2 with h | h
      · exact Or.inr h
      · exact Or.inl h
  constructor
  · rw [show getSkeleton sqrtQ vd lines = buildSkel sqrtQ vd lines 0 vd.edges [] from rfl]
    rw [nbsTo_buildSkel sqrtQ vd lines a b hab vd.edges 0 [] hnu, hfilterAB]
    simp [nbsTo, neighborsOf, lookupNode, entryFor, hv0]
  · rw [show getSkeleton sqrtQ vd lines = buildSkel sqrtQ vd lines 0 vd.edges [] from rfl]
    rw [nbsTo_buildSkel sqrtQ vd lines b a (Ne.symm hab) vd.edges 0 [] hnu, hfilterBA]
    have hv0b : ¬(e.v0 = b) := by
      rw [hv0]
      exact hab
    simp [nbsTo, neighborsOf, lookupNode, entryFor, hv0b]

/-- Witness for C6 on the concrete two-node diagram: reciprocal records,
both of length 25 (the identity stands in for the abstracted square root),
carrying the edge and its twin. -/
theorem C6_witness :
    nbsTo (getSkeleton (fun q => q) vdC6 []) 0 1 = [⟨0, 25, 1⟩] ∧
    nbsTo (getSkeleton (fun q => q) vdC6 []) 1 0 = [⟨1, 25, 0⟩] := by
  have h := C6_accepted_edge_symmetric_neighbors (fun q => q) vdC6 [] 0
    ⟨0, 1, 1, false, true, true, EdgeCategory.PointsInside, 0⟩ 0 1
    (by decide) (by decide) (by decide) rfl rfl (by decide) (by decide)
  have hlen : edgeLen (fun q => q) vdC6
      ⟨0, 1, 1, false, true, true, EdgeCategory.PointsInside, 0⟩ = 25 := by
    norm_num [edgeLen, vpos, vdC6]
  rw [hlen] at h
  exact h

/-! ## C7: single center point for short paths -/

/-- One-step unfolding of the walk of `get_center_of_path`. -/
theorem get_center_aux_cons (vd : VD) (g : Graph) (half : ℚ) (prev : ℕ) (dist : ℚ)
    (n : ℕ) (rest : List ℕ) :
    get_center_aux vd g half prev dist (n :: rest) =
      (let nb := (getNeighbor g prev n).getD ⟨0, 0, n⟩
       if half ≤ dist + nb.edge_length then
         get_edge_point vd nb.edge (1 - (dist + nb.edge_length - half) / nb.edge_length)
       else get_center_aux vd g half n (dist + nb.edge_length) rest) := rfl

/-- Value of `get_edge_point` for a ratio strictly inside the epsilon
band. -/
theorem get_edge_point_mid (vd : VD) (eidx : ℕ) (e : Edge) (ratio : ℚ)
    (he : vd.edges[eidx]? = some e) (h1 : eps < ratio) (h2 : ratio < 1 - eps) :
    get_edge_point vd eidx ratio =
      (if e.linear then
        ((vpos vd e.v0).1 + ratio * ((vpos vd e.v1).1 - (vpos vd e.v0).1),
         (vpos vd e.v0).2 + ratio * ((vpos vd e.v1).2 - (vpos vd e.v0).2))
       else vpos vd e.v0) := by
  simp only [get_edge_point, he]
  rw [if_neg (by linarith), if_neg (by linarith)]

/-- The walk of `get_center_of_path` computes the spec's arc-length
midpoint whenever the latter is defined. -/
theorem get_center_aux_spec (vd : VD) (g : Graph) (half : ℚ) :
    ∀ (l : List ℕ) (prev : ℕ) (dist : ℚ) (m : ℚ × ℚ),
      specCenterAux vd g half prev dist l = some m →
      get_center_aux vd g half prev dist l = m := by
  intro l
  induction l with
  | nil =>
    intro prev dist m h
    exact Option.noConfusion h
  | cons n rest ih =>
    intro prev dist m h
    have h' : (match getNeighbor g prev n with
        | none => none
        | some nb =>
          if half ≤ dist + nb.edge_length then
            match vd.edges[nb.edge]? with
            | none => none
            | some e =>
              let t := (half - dist) / nb.edge_length
              if 0 < nb.edge_length ∧ eps < t ∧ t < 1 - eps then
                some (if e.linear then
                        ((vpos vd e.v0).1 + t * ((vpos vd e.v1).1 - (vpos vd e.v0).1),
                         (vpos vd e.v0).2 + t * ((vpos vd e.v1).2 - (vpos vd e.v0).2))
                      else vpos vd e.v0)
              else none
          else specCenterAux vd g half n (dist + nb.edge_length) rest) = some m := h
    rw [get_center_aux_cons]
    cases hnb : getNeighbor g prev n with
    | none =>
      rw [hnb] at h'
      exact Option.noConfusion h'
    | some nb =>
      rw [hnb] at h'
      have h2 : (if half ≤ dist + nb.edge_length then
          (match vd.edges[nb.edge]? with
           | none => none
           | some e =>
             let t := (half - dist) / nb.edge_length
             if 0 < nb.edge_length ∧ eps < t ∧ t < 1 - eps then
               some (if e.linear then
                       ((vpos vd e.v0).1 + t * ((vpos vd e.v1).1 - (vpos vd e.v0).1),
                        (vpos vd e.v0).2 + t * ((vpos vd e.v1).2 - (vpos vd e.v0).2))
                     else vpos vd e.v0)
             else none)
          else specCenterAux vd g half n (dist + nb.edge_length) rest) = some m := h'
      simp only [Option.getD_some]
      by_cases hhalf : half ≤ dist + nb.edge_length
      · rw [if_pos hhalf] at h2 ⊢
        cases hedge : vd.edges[nb.edge]? with
        | none =>
          rw [hedge] at h2
          exact Option.noConfusion h2
        | some e =>
          rw [hedge] at h2
          have h3 : (if 0 < nb.edge_length ∧ eps < (half - dist) / nb.edge_length ∧
              (half - dist) / nb.edge_length < 1 - eps then
                some (if e.linear then
                        ((vpos vd e.v0).1 + (half - dist) / nb.edge_length *
                          ((vpos vd e.v1).1 - (vpos vd e.v0).1),
                         (vpos vd e.v0).2 + (half - dist) / nb.edge_length *
                          ((vpos vd e.v1).2 - (vpos vd e.v0).2))
                      else vpos vd e.v0)
              else none) = some m := h2
          by_cases hband : 0 < nb.edge_length ∧
              eps < (half - dist) / nb.edge_length ∧
              (half - dist) / nb.edge_length < 1 - eps
          · rw [if_pos hband] at h3
            have hm := Option.some.inj h3
            obtain ⟨hpos, hlo, hhi⟩ := hband
            have hne := ne_of_gt hpos
            have hr : 1 - (dist + nb.edge_length - half) / nb.edge_length =
                (half - dist) / nb.edge_length := by
              field_simp
              ring
            rw [hr]
            rw [get_edge_point_mid vd nb.edge e ((half - dist) / nb.edge_length) hedge hlo hhi]
            exact hm
          · rw [if_neg hband] at h3
            exact Option.noConfusion h3
      · rw [if_neg hhalf] at h2 ⊢
        exact ih n (dist + nb.edge_length) m h2

/-- C7: when the extracted longest path is shorter than the configured
threshold and its arc-length midpoint is well defined (half the length
falls properly inside an edge of the walk), `sample_voronoi_graph` returns
exactly one point, equal to that midpoint: the point obtained by
accumulating consecutive neighbor edge lengths until half the total length
falls within an edge and interpolating linearly along that edge (a curved
edge contributes its start point). -/
theorem C7_short_path_single_center_point (vd : VD) (g : Graph) (cfg : SampleConfig)
    (explore : ℕ → ExPath) (s : ℕ) (node : Node) (m : ℚ × ℚ)
    (hstart : findStart vd g = some (s, node))
    (hlen : (create_longest_path g explore s).length < cfg.max_length_for_one_support_point)
    (hmid : specArcCenter vd g (create_longest_path g explore s).path
      (create_longest_path g explore s).length = some m) :
    sample_voronoi_graph vd g cfg explore = [m] := by
  simp only [sample_voronoi_graph, hstart]
  rw [if_pos hlen]
  rcases hpath : (create_longest_path g explore s).path with _ | ⟨f, rest⟩
  · rw [hpath] at hmid
    exact Option.noConfusion hmid
  · rw [hpath] at hmid
    have hmid' : specCenterAux vd g ((create_longest_path g explore s).length / 2) f 0 rest =
        some m := hmid
    have := get_center_aux_spec vd g ((create_longest_path g explore s).length / 2)
      rest f 0 m hmid'
    show [get_center_aux vd g ((create_longest_path g explore s).length / 2) f 0 rest] = [m]
    rw [this]

/-- Witness for C7: the two-node path of length 2 with threshold 10 yields
the single midpoint (1, 0). -/
theorem C7_witness : sample_voronoi_graph vdC7 gC7 cfgC7 exploreC7 = [((1 : ℚ), (0 : ℚ))] := by
  apply C7_short_path_single_center_point vdC7 gC7 cfgC7 exploreC7 0 ⟨0, 0, [⟨0, 2, 1⟩]⟩ (1, 0)
  · rfl
  · norm_num [create_longest_path, reshape_longest_path, reshape_step, exploreC7, sbFind,
      cfgC7, List.find?]
  · norm_num [create_longest_path, reshape_longest_path, reshape_step, exploreC7, sbFind,
      specArcCenter, specCenterAux, getNeighbor, neighborsOf, lookupNode, gC7, vdC7, eps,
      List.find?, vpos]

/-! ## C8: first point of the multi-point pass -/

/-- C8: when the extracted longest path is not below the threshold, the
point emitted by `sample_voronoi_graph` is the offset point: the start
node's position moved by the fraction `start_distance / edge_length` of
the vector towards the opposite endpoint of its single edge, hence it lies
strictly between the start node and its single neighbor whenever
`0 < start_distance < edge_length`. -/
theorem C8_long_path_first_point_offset (vd : VD) (g : Graph) (cfg : SampleConfig)
    (explore : ℕ → ExPath) (s : ℕ) (node : Node) (nb : Neighbor) (e : Edge)
    (hstart : findStart vd g = some (s, node))
    (hlen : ¬((create_longest_path g explore s).length < cfg.max_length_for_one_support_point))
    (hnb : node.neighbors = [nb])
    (he : vd.edges[nb.edge]? = some e)
    (hv : node.vertex = e.v0 ∨ node.vertex = e.v1)
    (hother : ∃ other, lookupNode g nb.node = some other ∧
      other.vertex = (if node.vertex = e.v0 then e.v1 else e.v0))
    (hp0 : 0 < cfg.start_distance)
    (hp1 : cfg.start_distance < nb.edge_length) :
    sample_voronoi_graph vd g cfg explore = [get_offseted_point vd node cfg.start_distance] ∧
    get_offseted_point vd node cfg.start_distance =
      ((vpos vd node.vertex).1 + cfg.start_distance / nb.edge_length *
        ((vpos vd (if node.vertex = e.v0 then e.v1 else e.v0)).1 - (vpos vd node.vertex).1),
       (vpos vd node.vertex).2 + cfg.start_distance / nb.edge_length *
        ((vpos vd (if node.vertex = e.v0 then e.v1 else e.v0)).2 - (vpos vd node.vertex).2)) ∧
    strictlyBetween (vpos vd node.vertex)
      (vpos vd (if node.vertex = e.v0 then e.v1 else e.v0))
      (get_offseted_point vd node cfg.start_distance) := by
  have hlpos : 0 < nb.edge_length := lt_trans hp0 hp1
  have hlne : nb.edge_length ≠ 0 := ne_of_gt hlpos
  have hpne : cfg.start_distance ≠ 0 := ne_of_gt hp0
  have hoff : get_offseted_point vd node cfg.start_distance =
      ((vpos vd node.vertex).1 + cfg.start_distance / nb.edge_length *
        ((vpos vd (if node.vertex = e.v0 then e.v1 else e.v0)).1 - (vpos vd node.vertex).1),
       (vpos vd node.vertex).2 + cfg.start_distance / nb.edge_length *
        ((vpos vd (if node.vertex = e.v0 then e.v1 else e.v0)).2 - (vpos vd node.vertex).2)) := by
    obtain ⟨nv, ndist, nnbs⟩ := node
    have hnb2 : nnbs = [nb] := hnb
    subst hnb2
    have hv2 : nv = e.v0 ∨ nv = e.v1 := hv
    simp only [get_offseted_point, he]
    by_cases hv0 : nv = e.v0
    · simp only [hv0, if_pos rfl]
      simp only [Prod.mk.injEq]
      constructor
      · field_simp
        ring
      · field_simp
        ring
    · rcases hv2 with hv2 | hv2
      · exact absurd hv2 hv0
      · have hne2 : e.v1 ≠ e.v0 := fun hq => hv0 (by rw [hv2, hq])
        simp only [hv2]
        rw [if_neg hne2, if_neg hne2]
        simp only [Prod.mk.injEq]
        constructor
        · field_simp
          ring
        · field_simp
          ring
  refine ⟨?_, hoff, ?_⟩
  · simp only [sample_voronoi_graph, hstart]
    rw [if_neg hlen]
  · refine ⟨cfg.start_distance / nb.edge_length, div_pos hp0 hlpos,
      (div_lt_one hlpos).mpr hp1, ?_⟩
    rw [hoff]

/-- Witness for C8: on the two-node path of length 2 with threshold 1 and
start distance 1, the emitted point is (1, 0), strictly between (0, 0) and
(2, 0). -/
theorem C8_witness :
    sample_voronoi_graph vdC7 gC7 cfgC8 exploreC7 =
      [get_offseted_point vdC7 ⟨0, 0, [⟨0, 2, 1⟩]⟩ 1] ∧
    get_offseted_point vdC7 ⟨0, 0, [⟨0, 2, 1⟩]⟩ 1 = ((1 : ℚ), (0 : ℚ)) ∧
    strictlyBetween (0, 0) (2, 0) (get_offseted_point vdC7 ⟨0, 0, [⟨0, 2, 1⟩]⟩ 1) := by
  have h := C8_long_path_first_point_offset vdC7 gC7 cfgC8 exploreC7 0
    ⟨0, 0, [⟨0, 2, 1⟩]⟩ ⟨0, 2, 1⟩ ⟨0, 1, 1, false, true, true, EdgeCategory.PointsInside, 0⟩
    rfl
    (by norm_num [create_longest_path, reshape_longest_path, reshape_step, exploreC7,
      sbFind, cfgC8])
    rfl rfl (Or.inl rfl)
    ⟨⟨1, 0, [⟨1, 2, 0⟩]⟩, rfl, rfl⟩
    (by norm_num [cfgC8]) (by norm_num [cfgC8])
  obtain ⟨h1, h2, h3⟩ := h
  have hsd : cfgC8.start_distance = (1 : ℚ) := rfl
  rw [hsd] at h1 h2 h3
  refine ⟨h1, ?_, ?_⟩
  · rw [h2]
    norm_num [vpos, vdC7]
  · exact h3

/-! ## C4: merge_connected_circle offsets and transitive closure -/

/-- In a list with duplicate-free keys, a key determines its stored set. -/
theorem nodupKeys_eq : ∀ (src : List (ℕ × Finset ℕ)), (src.map Prod.fst).Nodup →
    ∀ (x : ℕ) (S1 S2 : Finset ℕ), (x, S1) ∈ src → (x, S2) ∈ src → S1 = S2 := by
  intro src
  induction src with
  | nil =>
    intro _ x S1 S2 h
    cases h
  | cons a rest ih =>
    intro hnd x S1 S2 h1 h2
    rw [List.map_cons] at hnd
    have hnd' := List.nodup_cons.mp hnd
    rcases List.mem_cons.mp h1 with h1 | h1
    · rcases List.mem_cons.mp h2 with h2 | h2
      · have h12 : (x, S1) = (x, S2) := h1.trans h2.symm
        exact ((Prod.mk.injEq _ _ _ _).mp h12).2
      · exfalso
        apply hnd'.1
        rw [← h1]
        show x ∈ List.map Prod.fst rest
        exact List.mem_map_of_mem Prod.fst h2
    · rcases List.mem_cons.mp h2 with h2 | h2
      · exfalso
        apply hnd'.1
        rw [← h2]
        show x ∈ List.map Prod.fst rest
        exact List.mem_map_of_mem Prod.fst h1
      · exact ih hnd'.2 x S1 S2 h1 h2

/-- Every member of a group has its own entry in a well-formed source,
describing the same group. -/
theorem srcEntryFor (src : List (ℕ × Finset ℕ)) (hs : srcGood src)
    (p : ℕ × Finset ℕ) (hp : p ∈ src) (q : ℕ) (hq : q ∈ classOf p) :
    ∃ S, (q, S) ∈ src ∧ insert q S = classOf p ∧ q ∉ S := by
  rcases Finset.mem_insert.mp hq with h | h
  · subst h
    exact ⟨p.2, hp, rfl, hs.2.1 p hp⟩
  · exact ⟨(insert p.1 p.2).erase q, hs.2.2 p hp q h,
      Finset.insert_erase hq, Finset.not_mem_erase _ _⟩

/-- Two groups of a well-formed source that share a member are equal. -/
theorem classOf_eq_of_mem (src : List (ℕ × Finset ℕ)) (hs : srcGood src)
    (p p' : ℕ × Finset ℕ) (hp : p ∈ src) (hp' : p' ∈ src)
    (x : ℕ) (h1 : x ∈ classOf p) (h2 : x ∈ classOf p') : classOf p = classOf p' := by
  obtain ⟨S1, hm1, he1, -⟩ := srcEntryFor src hs p hp x h1
  obtain ⟨S2, hm2, he2, -⟩ := srcEntryFor src hs p' hp' x h2
  have hS := nodupKeys_eq src hs.1 x S1 S2 hm1 hm2
  rw [← he1, ← he2, hS]

/-- Members of an offset group are at least the offset. -/
theorem offClass_ge (off : ℕ) (p : ℕ × Finset ℕ) (y : ℕ) (h : y ∈ offClass off p) :
    off ≤ y := by
  obtain ⟨z, -, rfl⟩ := Finset.mem_image.mp h
  exact Nat.le_add_right off z

/-- Two offset groups of a well-formed source that share a member are
equal. -/
theorem offClass_eq_of_mem (off : ℕ) (src : List (ℕ × Finset ℕ)) (hs : srcGood src)
    (p p' : ℕ × Finset ℕ) (hp : p ∈ src) (hp' : p' ∈ src)
    (y : ℕ) (h1 : y ∈ offClass off p) (h2 : y ∈ offClass off p') :
    offClass off p = offClass off p' := by
  obtain ⟨z, hz, rfl⟩ := Finset.mem_image.mp h1
  have hz' : z ∈ classOf p' := by
    obtain ⟨z2, hz2, hzz⟩ := Finset.mem_image.mp h2
    have hz2z : z2 = z := by omega
    rwa [← hz2z]
  show (classOf p).image _ = (classOf p').image _
  rw [classOf_eq_of_mem src hs p p' hp hp' z hz hz']

/-- Offset-group membership transfers along addition. -/
theorem offClass_mem_iff (off : ℕ) (p : ℕ × Finset ℕ) (z : ℕ) :
    off + z ∈ offClass off p ↔ z ∈ classOf p := by
  constructor
  · intro h
    obtain ⟨z2, hz2, hzz⟩ := Finset.mem_image.mp h
    have hz2z : z2 = z := by omega
    rwa [← hz2z]
  · intro h
    exact Finset.mem_image.mpr ⟨z, h, rfl⟩

/-- Unfolding of `mergeStep` when the offset key was already handled. -/
theorem mergeStep_done (off : ℕ) (st : Finset ℕ × CCMap) (p : ℕ × Finset ℕ)
    (h : (off + p.1) ∈ st.1) : mergeStep off st p = st := by
  simp only [mergeStep, if_pos h]

/-- Unfolding of `mergeStep` when the offset key is new. -/
theorem mergeStep_not_done (off : ℕ) (st : Finset ℕ × CCMap) (p : ℕ × Finset ℕ)
    (h : (off + p.1) ∉ st.1) :
    mergeStep off st p =
      (insert (off + p.1) st.1 ∪ (st.2.f (off + p.1) ∪ p.2.image (fun s => off + s)),
       { keys := insert (off + p.1) st.2.keys ∪
           (st.2.f (off + p.1) ∪ p.2.image (fun s => off + s)),
         f := fun x =>
           if x ∈ st.2.f (off + p.1) ∪ p.2.image (fun s => off + s) then
             (if x = off + p.1 then st.2.f (off + p.1) ∪ p.2.image (fun s => off + s)
              else st.2.f x) ∪
               (insert (off + p.1) (st.2.f (off + p.1) ∪ p.2.image (fun s => off + s))).erase x
           else
             (if x = off + p.1 then st.2.f (off + p.1) ∪ p.2.image (fun s => off + s)
              else st.2.f x) }) := by
  simp only [mergeStep, if_neg h]

/-- Offset membership in a plain image. -/
theorem image_add_mem_iff (off z : ℕ) (S : Finset ℕ) :
    off + z ∈ S.image (fun s => off + s) ↔ z ∈ S := by
  constructor
  · intro h
    obtain ⟨z2, hz2, hzz⟩ := Finset.mem_image.mp h
    have hz2z : z2 = z := by omega
    rwa [← hz2z]
  · intro h
    exact Finset.mem_image.mpr ⟨z, h, rfl⟩

/-- One outer-loop iteration of `merge_connected_circle` preserves the
invariant, only grows the done set, and marks the processed key done. -/
theorem mergeStep_inv (off : ℕ) (dst : CCMap) (src : List (ℕ × Finset ℕ))
    (hdst : dstGood off dst) (hsrc : srcGood src)
    (st : Finset ℕ × CCMap) (p : ℕ × Finset ℕ) (hp : p ∈ src)
    (hinv : mergeInv off dst src st) :
    mergeInv off dst src (mergeStep off st p) ∧
    st.1 ⊆ (mergeStep off st p).1 ∧
    (off + p.1) ∈ (mergeStep off st p).1 := by
  by_cases hdone : (off + p.1) ∈ st.1
  · rw [mergeStep_done off st p hdone]
    exact ⟨hinv, Finset.Subset.refl _, hdone⟩
  · obtain ⟨inv1, inv2, inv3, inv4, inv5⟩ := hinv
    have hdiK : (off + p.1) ∉ dst.keys := by
      intro hk
      have := hdst.1 _ hk
      omega
    have hfdi : st.2.f (off + p.1) = ∅ := by
      rw [inv3 _ hdone]
      exact hdst.2.2.1 _ hdiK
    have hdioff : (off + p.1) ∈ offClass off p :=
      Finset.mem_image.mpr ⟨p.1, Finset.mem_insert_self _ _, rfl⟩
    have hdisj : ∀ y ∈ offClass off p, y ∉ st.1 := by
      intro y hy hyDone
      obtain ⟨p', hp', hyp', hsub'⟩ := inv1 y hyDone
      have heq := offClass_eq_of_mem off src hsrc p p' hp hp' y hy hyp'
      apply hdone
      apply hsub'
      rw [← heq]
      exact hdioff
    have hdiconn : (off + p.1) ∉ p.2.image (fun s => off + s) := by
      intro hq
      exact hsrc.2.1 p hp ((image_add_mem_iff off p.1 p.2).mp hq)
    have hconn : insert (off + p.1) (p.2.image (fun s => off + s)) = offClass off p := by
      unfold offClass
      rw [Finset.image_insert]
    have hconnsub : p.2.image (fun s => off + s) ⊆ offClass off p := by
      rw [← hconn]
      exact Finset.subset_insert _ _
    rw [mergeStep_not_done off st p hdone]
    simp only [hfdi, Finset.empty_union]
    have hdone2 : ∀ y, y ∈ insert (off + p.1) st.1 ∪ p.2.image (fun s => off + s) ↔
        (y ∈ st.1 ∨ y ∈ offClass off p) := by
      intro y
      rw [← hconn]
      constructor
      · intro hy
        rcases Finset.mem_union.mp hy with hy | hy
        · rcases Finset.mem_insert.mp hy with hy | hy
          · exact Or.inr (hy ▸ Finset.mem_insert_self _ _)
          · exact Or.inl hy
        · exact Or.inr (Finset.mem_insert_of_mem hy)
      · intro hy
        rcases hy with hy | hy
        · exact Finset.mem_union_left _ (Finset.mem_insert_of_mem hy)
        · rcases Finset.mem_insert.mp hy with hy | hy
          · exact Finset.mem_union_left _ (hy ▸ Finset.mem_insert_self _ _)
          · exact Finset.mem_union_right _ hy
    refine ⟨⟨?_, ?_, ?_, ?_, ?_⟩, ?_, ?_⟩
    · intro x hx
      rcases (hdone2 x).mp hx with hx | hx
      · obtain ⟨p', hp', hxp', hsub'⟩ := inv1 x hx
        exact ⟨p', hp', hxp', fun y hy => (hdone2 y).mpr (Or.inl (hsub' hy))⟩
      · exact ⟨p, hp, hx, fun y hy => (hdone2 y).mpr (Or.inr hy)⟩
    · intro p' hp' x hxoff hxdone
      by_cases hx1 : x ∈ st.1
      · have hxnotoff : x ∉ offClass off p := fun hq => hdisj x hq hx1
        have hxconn : x ∉ p.2.image (fun s => off + s) := fun hq => hxnotoff (hconnsub hq)
        have hxdi : ¬(x = off + p.1) := fun hq => hdone (hq ▸ hx1)
        show (if x ∈ p.2.image (fun s => off + s) then _ else _) = _
        rw [if_neg hxconn, if_neg hxdi]
        exact inv2 p' hp' x hxoff hx1
      · have hxoffp : x ∈ offClass off p := by
          rcases (hdone2 x).mp hxdone with hq | hq
          · exact absurd hq hx1
          · exact hq
        have heq : offClass off p' = offClass off p :=
          offClass_eq_of_mem off src hsrc p' p hp' hp x hxoff hxoffp
        rw [heq]
        by_cases hxdi : x = off + p.1
        · subst hxdi
          show (if (off + p.1) ∈ p.2.image (fun s => off + s) then _ else _) = _
          rw [if_neg hdiconn, if_pos rfl]
          rw [← hconn, Finset.erase_insert hdiconn]
        · have hxconn : x ∈ p.2.image (fun s => off + s) := by
            rcases Finset.mem_insert.mp (hconn ▸ hxoffp) with hq | hq
            · exact absurd hq hxdi
            · exact hq
          show (if x ∈ p.2.image (fun s => off + s) then _ else _) = _
          rw [if_pos hxconn, if_neg hxdi]
          have hxge : off ≤ x := offClass_ge off p x hxoffp
          have hxK : x ∉ dst.keys := by
            intro hk
            have := hdst.1 _ hk
            have hxdi2 : x ≠ off + p.1 := hxdi
            have : x < off := this
            omega
          have hfx : st.2.f x = ∅ := by
            rw [inv3 x hx1]
            exact hdst.2.2.1 x hxK
          rw [hfx, Finset.empty_union, hconn]
    · intro x hx
      have hx1 : x ∉ st.1 := fun hq => hx ((hdone2 x).mpr (Or.inl hq))
      have hxoff : x ∉ offClass off p := fun hq => hx ((hdone2 x).mpr (Or.inr hq))
      have hxconn : x ∉ p.2.image (fun s => off + s) := fun hq => hxoff (hconnsub hq)
      have hxdi : ¬(x = off + p.1) := fun hq => hxoff (hq ▸ hdioff)
      show (if x ∈ p.2.image (fun s => off + s) then _ else _) = _
      rw [if_neg hxconn, if_neg hxdi]
      exact inv3 x hx1
    · intro y hy
      rcases (hdone2 y).mp hy with hy | hy
      · exact Finset.mem_union_left _ (Finset.mem_insert_of_mem (inv4 hy))
      · rcases Finset.mem_insert.mp (hconn ▸ hy) with hy | hy
        · exact Finset.mem_union_left _ (hy ▸ Finset.mem_insert_self _ _)
        · exact Finset.mem_union_right _ hy
    · intro y hy
      exact Finset.mem_union_left _ (Finset.mem_insert_of_mem (inv5 hy))
    · intro y hy
      exact (hdone2 y).mpr (Or.inl hy)
    · exact (hdone2 _).mpr (Or.inr hdioff)

/-- The whole outer loop preserves the invariant and marks every processed
key done. -/
theorem merge_foldl_inv (off : ℕ) (dst : CCMap) (src : List (ℕ × Finset ℕ))
    (hdst : dstGood off dst) (hsrc : srcGood src) :
    ∀ (l : List (ℕ × Finset ℕ)), (∀ p ∈ l, p ∈ src) →
      ∀ st, mergeInv off dst src st →
        mergeInv off dst src (l.foldl (mergeStep off) st) ∧
        st.1 ⊆ (l.foldl (mergeStep off) st).1 ∧
        ∀ p ∈ l, (off + p.1) ∈ (l.foldl (mergeStep off) st).1 := by
  intro l
  induction l with
  | nil =>
    intro _ st hinv
    refine ⟨hinv, Finset.Subset.refl _, ?_⟩
    intro p hp
    cases hp
  | cons q rest ih =>
    intro hl st hinv
    rw [List.foldl_cons]
    obtain ⟨hinv', hsub', hmem'⟩ :=
      mergeStep_inv off dst src hdst hsrc st q (hl q (List.mem_cons_self _ _)) hinv
    obtain ⟨hinvF, hsubF, hmemF⟩ :=
      ih (fun p hp => hl p (List.mem_cons_of_mem _ hp)) _ hinv'
    refine ⟨hinvF, Finset.Subset.trans hsub' hsubF, ?_⟩
    intro p hp
    rcases List.mem_cons.mp hp with h | h
    · subst h
      exact hsubF hmem'
    · exact hmemF p h

/-- C4: under the invariants `append_neighbor_branch` maintains (all
destination circle indices below the destination circle count `off`, both
connected-circle maps symmetric and transitively closed), after
`merge_connected_circle dst src off` every key and element originating
from `src` appears offset by `off`, and the resulting map is transitively
closed. -/
theorem C4_merge_offsets_transitively_closed (off : ℕ) (dst : CCMap)
    (src : List (ℕ × Finset ℕ)) (hdst : dstGood off dst) (hsrc : srcGood src) :
    (∀ p ∈ src, (off + p.1) ∈ (merge_connected_circle dst src off).keys ∧
      ∀ e ∈ p.2, (off + e) ∈ (merge_connected_circle dst src off).f (off + p.1)) ∧
    ccClosed (merge_connected_circle dst src off) := by
  have hinv0 : mergeInv off dst src (∅, dst) := by
    refine ⟨?_, ?_, ?_, ?_, ?_⟩
    · intro x hx
      exact absurd hx (Finset.not_mem_empty x)
    · intro p hp x hx hx1
      exact absurd hx1 (Finset.not_mem_empty x)
    · intro x _
      rfl
    · intro x hx
      exact absurd hx (Finset.not_mem_empty x)
    · exact Finset.Subset.refl _
  obtain ⟨hinvF, -, hmemF⟩ :=
    merge_foldl_inv off dst src hdst hsrc src (fun p hp => hp) (∅, dst) hinv0
  obtain ⟨inv1, inv2, inv3, inv4, inv5⟩ := hinvF
  have hres : merge_connected_circle dst src off = (src.foldl (mergeStep off) (∅, dst)).2 := rfl
  constructor
  · intro p hp
    have hdiDone : (off + p.1) ∈ (src.foldl (mergeStep off) (∅, dst)).1 := hmemF p hp
    have hdioff : (off + p.1) ∈ offClass off p :=
      Finset.mem_image.mpr ⟨p.1, Finset.mem_insert_self _ _, rfl⟩
    constructor
    · rw [hres]
      exact inv4 hdiDone
    · intro e he
      rw [hres]
      rw [inv2 p hp (off + p.1) hdioff hdiDone]
      apply Finset.mem_erase.mpr
      refine ⟨?_, Finset.mem_image.mpr ⟨e, Finset.mem_insert_of_mem he, rfl⟩⟩
      intro hq
      have hep : e = p.1 := by omega
      exact hsrc.2.1 p hp (hep ▸ he)
  · intro A B C hB hC hCA
    rw [hres] at hB hC ⊢
    by_cases hA : A ∈ (src.foldl (mergeStep off) (∅, dst)).1
    · obtain ⟨p, hp, hAoff, hsub⟩ := inv1 A hA
      have hfA := inv2 p hp A hAoff hA
      rw [hfA] at hB ⊢
      have hBoff : B ∈ offClass off p := (Finset.mem_erase.mp hB).2
      have hBdone : B ∈ (src.foldl (mergeStep off) (∅, dst)).1 := hsub hBoff
      have hfB := inv2 p hp B hBoff hBdone
      rw [hfB] at hC
      exact Finset.mem_erase.mpr ⟨hCA, (Finset.mem_erase.mp hC).2⟩
    · have hfA := inv3 A hA
      rw [hfA] at hB ⊢
      have hBlt : B < off := hdst.2.1 A B hB
      have hBdone : B ∉ (src.foldl (mergeStep off) (∅, dst)).1 := by
        intro hq
        obtain ⟨p, hp, hBoff, -⟩ := inv1 B hq
        have := offClass_ge off p B hBoff
        omega
      rw [inv3 B hBdone] at hC
      exact hdst.2.2.2 A B C hB hC hCA

/-- Witness for C4 on a concrete merge: the empty destination with two
unconnected circles (`off = 2`) receives the source groups `(0, ~1)` and
`(1, ~0)`; both keys and elements appear offset by 2. -/
theorem C4_witness :
    (2 + 0) ∈ (merge_connected_circle CCMap.empty [(0, {1}), (1, {0})] 2).keys ∧
    (2 + 1) ∈ (merge_connected_circle CCMap.empty [(0, {1}), (1, {0})] 2).f (2 + 0) := by
  have hdst : dstGood 2 CCMap.empty :=
    ⟨fun A hA => absurd hA (Finset.not_mem_empty A),
     fun A B hB => absurd hB (Finset.not_mem_empty B),
     fun A _ => rfl,
     fun A B C hB _ _ => absurd hB (Finset.not_mem_empty B)⟩
  have hsrc : srcGood [(0, {1}), (1, {0})] := by
    refine ⟨by decide, by decide, by decide⟩
  have h := (C4_merge_offsets_transitively_closed 2 CCMap.empty [(0, {1}), (1, {0})]
    hdst hsrc).1 (0, {1}) (by decide)
  exact ⟨h.1, h.2 1 (by decide)⟩

end VoronoiSupport
